import Mathlib

/-!
# Verification of the 64bit-Map-Weaver leak-detection and refinement pipeline

A shallow embedding of the image-analysis worker (`performLeakDetection`,
`performDiffing` in the in-worker script of `utils/imageDiff.ts`) and of the
refinement controller (`useMapGeneration` / `manualRefine`), together with
proofs relating the algorithms to declarative specifications.

Pixels are addressed by flat index `i < width * height`, with coordinates
`x = i % width`, `y = i / width`, exactly as in the source.  JavaScript
numbers are modelled by `Int` (all arithmetic performed by the source on
pixel data is exact integer arithmetic) and the single floating-point
division (`solidity = clusterSize / hullArea`) by exact rational division.
-/

namespace MapWeaver

/-- An RGB colour triple (alpha is ignored by all the analysed code). -/
structure RGB where
  r : Int
  g : Int
  b : Int
deriving DecidableEq

/-- Squared Euclidean colour distance, as `colorDistanceSq` in the worker. -/
def colorDistanceSq (c1 c2 : RGB) : Int :=
  (c1.r - c2.r) ^ 2 + (c1.g - c2.g) ^ 2 + (c1.b - c2.b) ^ 2

/-- A 2-D pixel coordinate, as the `{x, y}` objects of the worker. -/
structure Pt where
  x : Int
  y : Int
deriving DecidableEq

/-- `crossProduct` of the worker: turn direction of `p1 → p2 → p3`. -/
def crossProduct (p1 p2 p3 : Pt) : Int :=
  (p2.x - p1.x) * (p3.y - p1.y) - (p2.y - p1.y) * (p3.x - p1.x)

/-- The comparison used by the worker's sort: by `x`, ties broken by `y`. -/
def ptLE (a b : Pt) : Prop :=
  a.x < b.x ∨ (a.x = b.x ∧ a.y ≤ b.y)

instance : DecidableRel ptLE := fun a b => by
  unfold ptLE; infer_instance

instance : IsTotal Pt ptLE where
  total a b := by
    rcases lt_trichotomy a.x b.x with h | h | h
    · exact Or.inl (Or.inl h)
    · rcases le_total a.y b.y with h' | h'
      · exact Or.inl (Or.inr ⟨h, h'⟩)
      · exact Or.inr (Or.inr ⟨h.symm, h'⟩)
    · exact Or.inr (Or.inl h)

instance : IsTrans Pt ptLE where
  trans a b c hab hbc := by
    rcases hab with h1 | ⟨h1, h1'⟩ <;> rcases hbc with h2 | ⟨h2, h2'⟩
    · exact Or.inl (h1.trans h2)
    · exact Or.inl (h2 ▸ h1)
    · exact Or.inl (h1 ▸ h2)
    · exact Or.inr ⟨h1.trans h2, h1'.trans h2'⟩

instance : IsAntisymm Pt ptLE where
  antisymm a b hab hba := by
    rcases hab with h1 | ⟨h1, h1'⟩ <;> rcases hba with h2 | ⟨h2, h2'⟩
    · exact absurd h2 (lt_asymm h1)
    · exact absurd h1 (h2 ▸ lt_irrefl _)
    · exact absurd h2 (h1 ▸ lt_irrefl _)
    · cases a; cases b; simp only [Pt.mk.injEq]
      exact ⟨h1, le_antisymm h1' h2'⟩

/-- One step of the worker's `buildHull` inner loop, on the chain kept in
reversed order (most recently pushed point first): pop while the last two
points together with the new point do not make a strict right turn, then
push the new point. -/
def hullPush : List Pt → Pt → List Pt
  | p2 :: p1 :: rest, p =>
      if crossProduct p1 p2 p ≤ 0 then hullPush (p1 :: rest) p
      else p :: p2 :: p1 :: rest
  | hs, p => p :: hs

/-- The worker's `buildHull`: fold `hullPush` over the points, in order. -/
def buildHull (points : List Pt) : List Pt :=
  (points.foldl hullPush []).reverse

/-- The worker's sort `[...points].sort((a, b) => a.x !== b.x ? a.x - b.x : a.y - b.y)`. -/
def sortPoints (points : List Pt) : List Pt :=
  List.insertionSort ptLE points

/-- The worker's `getConvexHull` (monotone chain). -/
def getConvexHull (points : List Pt) : List Pt :=
  if points.length ≤ 2 then points
  else
    let sortedPoints := sortPoints points
    let lowerHull := buildHull sortedPoints
    let upperHull := buildHull sortedPoints.reverse
    lowerHull.dropLast ++ upperHull.dropLast

/-- The signed double area accumulated by the worker's `polygonArea` loop
(`j` is the cyclic predecessor of `i`, starting with `j = length - 1`, `i = 0`). -/
def shoelace (points : List Pt) : Int :=
  match points with
  | [] => 0
  | p :: _ =>
      ((points.getLastD p :: points.dropLast).zip points).foldl
        (fun s ab => s + (ab.1.x + ab.2.x) * (ab.1.y - ab.2.y)) 0

/-- The worker's `polygonArea`: `Math.abs(area / 2.0)`. -/
def polygonArea (points : List Pt) : ℚ :=
  (((shoelace points).natAbs : ℚ)) / 2

/-- A decoded bitmap: dimensions plus pixel colours, indexed by flat index. -/
structure Image where
  width : Nat
  height : Nat
  pix : Nat → RGB

/-- Coordinates of a flat pixel index, as computed throughout the worker. -/
def toPt (w : Nat) (i : Nat) : Pt :=
  ⟨(i % w : Nat), (i / w : Nat)⟩

/-- The fixed blueprint palette of `getBlueprintColorsRGB` (hex colours of
`TERRAINS`: #00FF00, #FF00FF, #00FFFF, #FFFF00, #FFA500, #FF0000). -/
def blueprintColorsRGB : List RGB :=
  [⟨0, 255, 0⟩, ⟨255, 0, 255⟩, ⟨0, 255, 255⟩, ⟨255, 255, 0⟩, ⟨255, 165, 0⟩, ⟨255, 0, 0⟩]

/-- The square search window of the cluster BFS (`searchRadius` cells in each
direction, skipping the centre, bounds-checked), scanned in the source's
order: `ny` outer from `-r` to `r`, `nx` inner. -/
def windowNeighbors (w h r : Nat) (i : Nat) : List Nat :=
  let x : Int := (i % w : Nat)
  let y : Int := (i / w : Nat)
  (List.range (2 * r + 1)).flatMap (fun dy : Nat =>
    (List.range (2 * r + 1)).filterMap (fun dx : Nat =>
      let nx : Int := (dx : Int) - (r : Int)
      let ny : Int := (dy : Int) - (r : Int)
      if nx = 0 ∧ ny = 0 then none
      else
        let checkX := x + nx
        let checkY := y + ny
        if 0 ≤ checkX ∧ checkX < (w : Int) ∧ 0 ≤ checkY ∧ checkY < (h : Int) then
          some (checkY * (w : Int) + checkX).toNat
        else none))

/-- The 4-directional neighbours used by the flatness flood fill, in the
source's order: top, bottom, left, right, each guarded by the bounds check. -/
def fourNeighbors (w h : Nat) (i : Nat) : List Nat :=
  let x := i % w
  let y := i / w
  (if 0 < y then [i - w] else []) ++
    (if y < h - 1 then [i + w] else []) ++
      (if 0 < x then [i - 1] else []) ++
        (if x < w - 1 then [i + 1] else [])

/-! ## Generic breadth-first worklist search

Both flood fills of the worker (the flatness pass and the cluster pass) have
the same shape: a FIFO queue of pixel indices, a visited array, and an inner
loop over a neighbour list that enqueues each admissible unvisited neighbour,
marking it visited at enqueue time.  `bfsEnqueue` is one run of the inner
loop and `bfsRun` the outer `while (queue.length > 0)` loop; the collected
pixels are accumulated in `acc` (in reverse discovery order, which no
consumer observes: only the set and the count of collected pixels matter). -/

/-- The inner neighbour loop:
`if (good(n) && !visited[n]) { visited[n] = 1; queue.push(n); }` for every
candidate `n`, in order.  The bound `n < N` is guaranteed by both neighbour
generators and is re-checked here to make termination of `bfsRun` evident. -/
def bfsEnqueue (N : Nat) (good : Nat → Bool) :
    List Nat → Finset Nat → List Nat → List Nat × Finset Nat
  | [], vis, q => (q, vis)
  | n :: rest, vis, q =>
      if n < N ∧ good n = true ∧ n ∉ vis then
        bfsEnqueue N good rest (insert n vis) (q ++ [n])
      else bfsEnqueue N good rest vis q

theorem bfsEnqueue_spec (N : Nat) (good : Nat → Bool) :
    ∀ (cands : List Nat) (vis : Finset Nat) (q : List Nat),
    ∃ ex : List Nat,
      (bfsEnqueue N good cands vis q).1 = q ++ ex ∧
      (bfsEnqueue N good cands vis q).2 = vis ∪ ex.toFinset ∧
      ex.Nodup ∧
      (∀ n ∈ ex, n ∈ cands ∧ n < N ∧ good n = true ∧ n ∉ vis) ∧
      (∀ n ∈ cands, n < N → good n = true → n ∈ vis ∨ n ∈ ex)
  | [], vis, q => ⟨[], by simp [bfsEnqueue]⟩
  | n :: rest, vis, q => by
    by_cases h : n < N ∧ good n = true ∧ n ∉ vis
    · obtain ⟨ex, h1, h2, h3, h4, h5⟩ :=
        bfsEnqueue_spec N good rest (insert n vis) (q ++ [n])
      refine ⟨n :: ex, ?_, ?_, ?_, ?_, ?_⟩
      · simpa [bfsEnqueue, if_pos h] using h1
      · rw [show bfsEnqueue N good (n :: rest) vis q =
            bfsEnqueue N good rest (insert n vis) (q ++ [n]) by simp [bfsEnqueue, if_pos h],
          h2]
        ext m
        simp only [Finset.mem_union, List.toFinset_cons, Finset.mem_insert]
        tauto
      · refine List.nodup_cons.mpr ⟨fun hmem => ?_, h3⟩
        exact ((h4 n hmem).2.2.2) (Finset.mem_insert_self n vis)
      · intro m hm
        rcases List.mem_cons.mp hm with rfl | hm
        · exact ⟨List.mem_cons_self m rest, h.1, h.2.1, h.2.2⟩
        · obtain ⟨hc, hN, hg, hv⟩ := h4 m hm
          exact ⟨List.mem_cons_of_mem _ hc, hN, hg,
            fun hmv => hv (Finset.mem_insert_of_mem hmv)⟩
      · intro m hm hN hg
        rcases List.mem_cons.mp hm with rfl | hm
        · exact Or.inr (List.mem_cons_self m ex)
        · rcases h5 m hm hN hg with hv | hx
          · rcases Finset.mem_insert.mp hv with rfl | hv
            · exact Or.inr (List.mem_cons_self m ex)
            · exact Or.inl hv
          · exact Or.inr (List.mem_cons_of_mem _ hx)
    · obtain ⟨ex, h1, h2, h3, h4, h5⟩ := bfsEnqueue_spec N good rest vis q
      refine ⟨ex, ?_, ?_, h3, ?_, ?_⟩
      · simpa [bfsEnqueue, if_neg h] using h1
      · simpa [bfsEnqueue, if_neg h] using h2
      · intro m hm
        obtain ⟨hc, hN, hg, hv⟩ := h4 m hm
        exact ⟨List.mem_cons_of_mem _ hc, hN, hg, hv⟩
      · intro m hm hN hg
        rcases List.mem_cons.mp hm with rfl | hm
        · by_cases hv : m ∈ vis
          · exact Or.inl hv
          · exact absurd ⟨hN, hg, hv⟩ h
        · exact h5 m hm hN hg

theorem sdiff_card_lt_of_new {N : Nat} {vis : Finset Nat} {s : Finset Nat} {m : Nat}
    (hm : m ∈ s) (hmN : m < N) (hmv : m ∉ vis) :
    ((Finset.range N) \ (vis ∪ s)).card < ((Finset.range N) \ vis).card := by
  apply Finset.card_lt_card
  rw [Finset.ssubset_iff_of_subset
    (Finset.sdiff_subset_sdiff (le_refl _) Finset.subset_union_left)]
  refine ⟨m, ?_, ?_⟩
  · simp [Finset.mem_sdiff, Finset.mem_range, hmN, hmv]
  · simp [Finset.mem_sdiff, hm]

theorem bfsRun_dec (N : Nat) (good : Nat → Bool) (cands : List Nat)
    (rest : List Nat) (vis : Finset Nat) :
    Prod.Lex (· < ·) (· < ·)
      (((Finset.range N) \ (bfsEnqueue N good cands vis rest).2).card,
        (bfsEnqueue N good cands vis rest).1.length)
      (((Finset.range N) \ vis).card, rest.length + 1) := by
  obtain ⟨ex, h1, h2, h3, h4, h5⟩ := bfsEnqueue_spec N good cands vis rest
  rcases ex with _ | ⟨m, ex'⟩
  · rw [h1, h2]
    simp only [List.append_nil, List.toFinset_nil, Finset.union_empty]
    exact Prod.Lex.right _ (by omega)
  · rw [h2]
    obtain ⟨_, hN, _, hv⟩ := h4 m (List.mem_cons_self m ex')
    exact Prod.Lex.left _ _ (sdiff_card_lt_of_new (by simp) hN hv)

/-- The outer BFS loop: pop the queue head, record it, enqueue its
admissible neighbours. -/
def bfsRun (N : Nat) (good : Nat → Bool) (nbrs : Nat → List Nat) :
    List Nat → Finset Nat → List Nat → List Nat × Finset Nat
  | [], vis, acc => (acc, vis)
  | cur :: rest, vis, acc =>
      bfsRun N good nbrs (bfsEnqueue N good (nbrs cur) vis rest).1
        (bfsEnqueue N good (nbrs cur) vis rest).2 (cur :: acc)
termination_by queue vis _ => (((Finset.range N) \ vis).card, queue.length)
decreasing_by
  exact bfsRun_dec N good _ _ _

/-- One admissible step of the search, avoiding the set `V`. -/
def bfsStep (N : Nat) (good : Nat → Bool) (nbrs : Nat → List Nat)
    (V : Finset Nat) (a b : Nat) : Prop :=
  b ∈ nbrs a ∧ b < N ∧ good b = true ∧ b ∉ V

/-- Reachability through admissible steps, avoiding the set `V`. -/
def ReachFrom (N : Nat) (good : Nat → Bool) (nbrs : Nat → List Nat)
    (V : Finset Nat) (s j : Nat) : Prop :=
  Relation.ReflTransGen (bfsStep N good nbrs V) s j

theorem bfsRun_invariant (N : Nat) (good : Nat → Bool) (nbrs : Nat → List Nat)
    (V₀ : Finset Nat) (s : Nat) :
    ∀ (queue : List Nat) (vis : Finset Nat) (acc : List Nat),
    vis = V₀ ∪ (queue.toFinset ∪ acc.toFinset) →
    Disjoint V₀ (queue.toFinset ∪ acc.toFinset) →
    queue.Nodup → acc.Nodup → (∀ x ∈ queue, x ∉ acc) →
    (∀ m ∈ queue.toFinset ∪ acc.toFinset, ReachFrom N good nbrs V₀ s m) →
    (∀ a ∈ acc, ∀ b ∈ nbrs a, b < N → good b = true → b ∉ V₀ →
        b ∈ queue.toFinset ∪ acc.toFinset) →
    (bfsRun N good nbrs queue vis acc).1.Nodup ∧
      queue.toFinset ∪ acc.toFinset ⊆ (bfsRun N good nbrs queue vis acc).1.toFinset ∧
      (∀ m ∈ (bfsRun N good nbrs queue vis acc).1, ReachFrom N good nbrs V₀ s m) ∧
      (∀ a ∈ (bfsRun N good nbrs queue vis acc).1, ∀ b ∈ nbrs a, b < N →
          good b = true → b ∉ V₀ → b ∈ (bfsRun N good nbrs queue vis acc).1.toFinset) ∧
      (bfsRun N good nbrs queue vis acc).2
        = V₀ ∪ (bfsRun N good nbrs queue vis acc).1.toFinset ∧
      Disjoint V₀ (bfsRun N good nbrs queue vis acc).1.toFinset := by
  intro queue vis acc
  induction queue, vis, acc using bfsRun.induct N good nbrs with
  | case1 vis acc =>
    intro hVis hDisj _ hAN _ hReach hClosed
    simp only [bfsRun]
    refine ⟨hAN, ?_, ?_, ?_, ?_, ?_⟩
    · intro x hx
      simp only [List.toFinset_nil, Finset.empty_union] at hx
      exact hx
    · intro m hm
      exact hReach m (by simp [List.mem_toFinset.mpr hm])
    · intro a ha b hb hbN hbg hbV
      exact hClosed a ha b hb hbN hbg hbV
    · rw [hVis]; simp
    · simpa using hDisj
  | case2 n rest vis acc ih =>
    intro hVis hDisj hQN hAN hQA hReach hClosed
    obtain ⟨ex, e1, e2, e3, e4, e5⟩ := bfsEnqueue_spec N good (nbrs n) vis rest
    have hV₀vis : V₀ ⊆ vis := hVis ▸ Finset.subset_union_left
    have hnvis : n ∈ vis := by
      rw [hVis]; exact Finset.mem_union_right _ (by simp)
    have hrestvis : ∀ x ∈ rest, x ∈ vis := fun x hx => by
      rw [hVis]; exact Finset.mem_union_right _ (by simp [hx])
    have haccvis : ∀ x ∈ acc, x ∈ vis := fun x hx => by
      rw [hVis]; exact Finset.mem_union_right _ (by simp [hx])
    have hMsub : (n :: rest).toFinset ∪ acc.toFinset
        ⊆ (bfsEnqueue N good (nbrs n) vis rest).1.toFinset ∪ (n :: acc).toFinset := by
      rw [e1]
      intro x hx
      simp only [List.toFinset_cons, List.toFinset_append, Finset.mem_union,
        Finset.mem_insert, List.mem_toFinset] at hx ⊢
      tauto
    have hinv := ih ?_ ?_ ?_ ?_ ?_ ?_ ?_
    · simp only [bfsRun]
      obtain ⟨c1, c2, c3, c4, c5, c6⟩ := hinv
      exact ⟨c1, fun x hx => c2 (hMsub hx), c3, c4, c5, c6⟩
    · rw [e2, e1, hVis]
      ext x
      simp only [Finset.mem_union, List.toFinset_cons, List.toFinset_append,
        Finset.mem_insert, List.mem_toFinset]
      tauto
    · rw [e1]
      rw [Finset.disjoint_left]
      intro x hx hmem
      simp only [List.toFinset_cons, List.toFinset_append, Finset.mem_union,
        Finset.mem_insert, List.mem_toFinset] at hmem
      rcases hmem with (hr | hex) | (rfl | hacc)
      · exact (Finset.disjoint_left.mp hDisj hx) (by simp [hr])
      · exact (e4 x hex).2.2.2 (hV₀vis hx)
      · exact (Finset.disjoint_left.mp hDisj hx) (by simp)
      · exact (Finset.disjoint_left.mp hDisj hx) (by simp [hacc])
    · rw [e1]
      refine List.Nodup.append ((List.nodup_cons.mp hQN).2) e3 ?_
      intro x hx hxex
      exact (e4 x hxex).2.2.2 (hrestvis x hx)
    · exact List.nodup_cons.mpr ⟨hQA n (List.mem_cons_self n rest), hAN⟩
    · intro x hx
      rw [e1] at hx
      rcases List.mem_append.mp hx with hr | hex
      · intro hmem
        rcases List.mem_cons.mp hmem with rfl | hacc
        · exact (List.nodup_cons.mp hQN).1 hr
        · exact hQA x (List.mem_cons_of_mem _ hr) hacc
      · intro hmem
        rcases List.mem_cons.mp hmem with rfl | hacc
        · exact (e4 x hex).2.2.2 hnvis
        · exact (e4 x hex).2.2.2 (haccvis x hacc)
    · intro m hm
      rw [e1] at hm
      simp only [List.toFinset_cons, List.toFinset_append, Finset.mem_union,
        Finset.mem_insert, List.mem_toFinset] at hm
      rcases hm with (hr | hex) | (rfl | hacc)
      · exact hReach m (by simp [hr])
      · refine Relation.ReflTransGen.tail (hReach n (by simp)) ?_
        obtain ⟨hnb, hN, hg, hv⟩ := e4 m hex
        exact ⟨hnb, hN, hg, fun hm' => hv (hV₀vis hm')⟩
      · exact hReach m (by simp)
      · exact hReach m (by simp [hacc])
    · intro a ha b hb hbN hbg hbV
      rcases List.mem_cons.mp ha with rfl | hacc
      · rcases e5 b hb hbN hbg with hbvis | hbex
        · rw [hVis] at hbvis
          rcases Finset.mem_union.mp hbvis with hbV₀ | hbM
          · exact absurd hbV₀ hbV
          · exact hMsub (by simpa using hbM)
        · rw [e1]
          simp [hbex]
      · have := hClosed a hacc b hb hbN hbg hbV
        exact hMsub (by simpa using this)

/-- Entry-point specification of the worker's flood fill: started on a seed
`s` not in the prior visited set `V₀`, the collected pixel list is exactly
the set of pixels reachable from `s` through admissible steps avoiding
`V₀`, without duplicates, and the final visited set is `V₀` plus the
collected pixels. -/
theorem bfsRun_spec (N : Nat) (good : Nat → Bool) (nbrs : Nat → List Nat)
    (V₀ : Finset Nat) (s : Nat) (hsV : s ∉ V₀) :
    (bfsRun N good nbrs [s] (insert s V₀) []).1.Nodup ∧
    (∀ j, j ∈ (bfsRun N good nbrs [s] (insert s V₀) []).1
        ↔ ReachFrom N good nbrs V₀ s j) ∧
    (bfsRun N good nbrs [s] (insert s V₀) []).2
      = V₀ ∪ (bfsRun N good nbrs [s] (insert s V₀) []).1.toFinset := by
  have hinv := bfsRun_invariant N good nbrs V₀ s [s] (insert s V₀) []
    (by ext x; simp; tauto)
    (by simp [Finset.disjoint_singleton_right, hsV])
    (by simp) (by simp) (by simp)
    (by intro m hm; simp at hm; subst hm; exact Relation.ReflTransGen.refl)
    (by simp)
  obtain ⟨c1, c2, c3, c4, c5, c6⟩ := hinv
  refine ⟨c1, fun j => ⟨c3 j, fun hreach => ?_⟩, c5⟩
  induction hreach with
  | refl =>
    have : s ∈ ([s].toFinset ∪ ([] : List Nat).toFinset) := by simp
    exact List.mem_toFinset.mp (c2 this)
  | tail h1 h2 ih =>
    obtain ⟨hnb, hN, hg, hV⟩ := h2
    exact List.mem_toFinset.mp (c4 _ ih _ hnb hN hg hV)

/-! ## Connected components of a mask

The declarative counterpart of the cluster BFS: `goodStep` is one move of
the search with no avoid-set, `Connected` is its reflexive-transitive
closure, and `IsComponent` characterises a maximal connected set of mask
pixels — the "cluster" of the specification. -/

/-- One admissible step with no avoid-set. -/
def goodStep (N : Nat) (good : Nat → Bool) (nbrs : Nat → List Nat) (a b : Nat) : Prop :=
  b ∈ nbrs a ∧ b < N ∧ good b = true

/-- Connectivity inside the mask `good`, via the adjacency `nbrs`. -/
def Connected (N : Nat) (good : Nat → Bool) (nbrs : Nat → List Nat) (s j : Nat) : Prop :=
  Relation.ReflTransGen (goodStep N good nbrs) s j

/-- A maximal connected set of mask pixels: nonempty, all pixels in the
mask and in range, closed under adjacency within the mask, and pairwise
connected. -/
def IsComponent (N : Nat) (good : Nat → Bool) (nbrs : Nat → List Nat)
    (C : Finset Nat) : Prop :=
  C.Nonempty ∧ (∀ i ∈ C, i < N ∧ good i = true) ∧
    (∀ i ∈ C, ∀ b ∈ nbrs i, b < N → good b = true → b ∈ C) ∧
    (∀ i ∈ C, ∀ j ∈ C, Connected N good nbrs i j)

theorem reachFrom_mono {N : Nat} {good : Nat → Bool} {nbrs : Nat → List Nat}
    {V : Finset Nat} {s j : Nat} (h : ReachFrom N good nbrs V s j) :
    Connected N good nbrs s j :=
  Relation.ReflTransGen.mono (fun _ _ hab => ⟨hab.1, hab.2.1, hab.2.2.1⟩) h

theorem connected_target {N : Nat} {good : Nat → Bool} {nbrs : Nat → List Nat}
    {s j : Nat} (h : Connected N good nbrs s j) :
    j = s ∨ (j < N ∧ good j = true) := by
  induction h with
  | refl => exact Or.inl rfl
  | tail _ hstep _ => exact Or.inr ⟨hstep.2.1, hstep.2.2⟩

theorem connected_symm {N : Nat} {good : Nat → Bool} {nbrs : Nat → List Nat}
    (hsym : ∀ i j, i < N → j < N → (j ∈ nbrs i → i ∈ nbrs j))
    {s j : Nat} (hsN : s < N) (hsg : good s = true)
    (h : Connected N good nbrs s j) : Connected N good nbrs j s := by
  induction h with
  | refl => exact Relation.ReflTransGen.refl
  | tail hsa hstep ih =>
    rename_i a b
    have haprops : a < N ∧ good a = true := by
      rcases connected_target hsa with rfl | hp
      · exact ⟨hsN, hsg⟩
      · exact hp
    exact Relation.ReflTransGen.head
      ⟨hsym a b haprops.1 hstep.2.1 hstep.1, haprops.1, haprops.2⟩ ih

/-- If the avoid-set `V` is closed under mask adjacency, avoiding it is no
restriction for a search started outside it. -/
theorem connected_reachFrom_of_closed {N : Nat} {good : Nat → Bool}
    {nbrs : Nat → List Nat} {V : Finset Nat}
    (hsym : ∀ i j, i < N → j < N → (j ∈ nbrs i → i ∈ nbrs j))
    (hclosed : ∀ v ∈ V, ∀ b ∈ nbrs v, b < N → good b = true → b ∈ V)
    {s j : Nat} (hsV : s ∉ V) (hsN : s < N) (hsg : good s = true)
    (h : Connected N good nbrs s j) : j ∉ V ∧ ReachFrom N good nbrs V s j := by
  induction h with
  | refl => exact ⟨hsV, Relation.ReflTransGen.refl⟩
  | tail hsa hstep ih =>
    rename_i a b
    have haprops : a < N ∧ good a = true := by
      rcases connected_target hsa with rfl | hp
      · exact ⟨hsN, hsg⟩
      · exact hp
    have hbV : b ∉ V := by
      intro hbV
      exact ih.1 (hclosed b hbV a (hsym a b haprops.1 hstep.2.1 hstep.1)
        haprops.1 haprops.2)
    exact ⟨hbV, Relation.ReflTransGen.tail ih.2 ⟨hstep.1, hstep.2.1, hstep.2.2, hbV⟩⟩

theorem connected_mem_of_closed {N : Nat} {good : Nat → Bool}
    {nbrs : Nat → List Nat} {C : Finset Nat}
    (hclosed : ∀ i ∈ C, ∀ b ∈ nbrs i, b < N → good b = true → b ∈ C)
    {x j : Nat} (hx : x ∈ C) (h : Connected N good nbrs x j) : j ∈ C := by
  induction h with
  | refl => exact hx
  | tail _ hstep ih => exact hclosed _ ih _ hstep.1 hstep.2.1 hstep.2.2

/-- Two maximal connected sets sharing a pixel are equal. -/
theorem component_unique {N : Nat} {good : Nat → Bool} {nbrs : Nat → List Nat}
    {C C' : Finset Nat} (hC : IsComponent N good nbrs C)
    (hC' : IsComponent N good nbrs C') {x : Nat} (hx : x ∈ C) (hx' : x ∈ C') :
    C = C' := by
  apply Finset.Subset.antisymm
  · intro j hj
    exact connected_mem_of_closed hC'.2.2.1 hx' (hC.2.2.2 x hx j hj)
  · intro j hj
    exact connected_mem_of_closed hC.2.2.1 hx (hC'.2.2.2 x hx' j hj)

/-- The collected pixels of a flood fill started on a seed outside a closed
visited set form exactly the maximal connected component of the seed. -/
theorem bfsRun_component {N : Nat} {good : Nat → Bool} {nbrs : Nat → List Nat}
    {V : Finset Nat}
    (hsym : ∀ i j, i < N → j < N → (j ∈ nbrs i → i ∈ nbrs j))
    (hclosed : ∀ v ∈ V, ∀ b ∈ nbrs v, b < N → good b = true → b ∈ V)
    {s : Nat} (hsV : s ∉ V) (hsN : s < N) (hsg : good s = true) :
    (bfsRun N good nbrs [s] (insert s V) []).1.Nodup ∧
    (∀ j, j ∈ (bfsRun N good nbrs [s] (insert s V) []).1
        ↔ Connected N good nbrs s j) ∧
    IsComponent N good nbrs (bfsRun N good nbrs [s] (insert s V) []).1.toFinset ∧
    (bfsRun N good nbrs [s] (insert s V) []).2
      = V ∪ (bfsRun N good nbrs [s] (insert s V) []).1.toFinset := by
  obtain ⟨c1, c2, c3⟩ := bfsRun_spec N good nbrs V s hsV
  have hiff : ∀ j, j ∈ (bfsRun N good nbrs [s] (insert s V) []).1
      ↔ Connected N good nbrs s j := by
    intro j
    rw [c2 j]
    constructor
    · exact reachFrom_mono
    · exact fun h => (connected_reachFrom_of_closed hsym hclosed hsV hsN hsg h).2
  refine ⟨c1, hiff, ⟨?_, ?_, ?_, ?_⟩, c3⟩
  · exact ⟨s, List.mem_toFinset.mpr ((hiff s).mpr Relation.ReflTransGen.refl)⟩
  · intro i hi
    rcases connected_target ((hiff i).mp (List.mem_toFinset.mp hi)) with rfl | hp
    · exact ⟨hsN, hsg⟩
    · exact hp
  · intro i hi b hb hbN hbg
    have hsi := (hiff i).mp (List.mem_toFinset.mp hi)
    exact List.mem_toFinset.mpr ((hiff b).mpr
      (Relation.ReflTransGen.tail hsi ⟨hb, hbN, hbg⟩))
  · intro i hi j hj
    have hsi := (hiff i).mp (List.mem_toFinset.mp hi)
    have hsj := (hiff j).mp (List.mem_toFinset.mp hj)
    exact Relation.ReflTransGen.trans (connected_symm hsym hsN hsg hsi) hsj

/-! ## The worker's `performLeakDetection` -/

/-- Number of pixels of a bitmap (`width * height`). -/
def pixelCount (img : Image) : Nat :=
  img.width * img.height

/-- Admissibility test of the flatness flood fill seeded at `s`: a pixel
joins the region when its colour is close to the colour of the *seed*
(`startR/startG/startB` in the source). -/
def flatGoodFor (img : Image) (flatT : Int) (s : Nat) : Nat → Bool :=
  fun n => decide (colorDistanceSq (img.pix s) (img.pix n) < flatT)

/-- Pass 1 of `performLeakDetection`, processing seeds `0, …, k-1` in scan
order: state = (visited-for-flatness, pixels marked as leaks).  A seed that
is still unvisited grows a 4-directional flood-fill region; the region is
marked as leak only when it holds strictly more than `thr` pixels, but its
pixels stay visited either way. -/
def flatnessScanAux (img : Image) (flatT : Int) (thr : Nat) : Nat → Finset Nat × Finset Nat
  | 0 => (∅, ∅)
  | k + 1 =>
      let st := flatnessScanAux img flatT thr k
      if k ∈ st.1 then st
      else
        let r := bfsRun (pixelCount img) (flatGoodFor img flatT k)
          (fourNeighbors img.width img.height) [k] (insert k st.1) []
        if r.1.length > thr then (r.2, st.2 ∪ r.1.toFinset) else (r.2, st.2)

/-- The pixels marked as leaks by the flatness pass. -/
def flatMarked (img : Image) (flatT : Int) (thr : Nat) : Finset Nat :=
  (flatnessScanAux img flatT thr (pixelCount img)).2

/-- The flatness pass as a pixel mask, including the guard
`if (flatnessThresholdSq && flatnessThresholdSq > 0)`: with no (or a
non-positive) flatness threshold the pass is skipped entirely. -/
def pass1Mask (img : Image) (flat : Option Int) (thr : Nat) : Nat → Bool :=
  match flat with
  | some f => if 0 < f then fun i => decide (i ∈ flatMarked img f thr) else fun _ => false
  | none => fun _ => false

/-- Pass 2 test: the pixel's colour is within the colour-match tolerance of
some palette entry. -/
def paletteMatch (img : Image) (P : List RGB) (tol : Int) (i : Nat) : Bool :=
  P.any (fun c => decide (colorDistanceSq (img.pix i) c < tol))

/-- The combined leak mask after both passes.  Pixels already flagged by
the flatness pass are skipped by the palette-match pass (`continue` in the
source), so the palette is never consulted for them. -/
def leakMask (img : Image) (P : List RGB) (tol : Int) (flat : Option Int)
    (thr : Nat) : Nat → Bool := fun i =>
  if pass1Mask img flat thr i then true else paletteMatch img P tol i

/-- The leak mask restricted to valid pixel indices (the worker's `leaks`
array has exactly `width * height` entries). -/
def leakAt (img : Image) (P : List RGB) (tol : Int) (flat : Option Int)
    (thr : Nat) : Nat → Bool := fun i =>
  decide (i < pixelCount img) && leakMask img P tol flat thr i

/-- `totalLeakedPixels` of pass 3. -/
def totalLeakedPixels (img : Image) (P : List RGB) (tol : Int) (flat : Option Int)
    (thr : Nat) : Nat :=
  ((List.range (pixelCount img)).filter (fun i => leakMask img P tol flat thr i)).length

/-- The worker's blob test on one collected cluster: size above the
threshold, convex hull with more than 2 vertices and positive area, and
solidity strictly above `SOLIDITY_THRESHOLD = 0.75`. -/
def blobCheck (thr w : Nat) (idxs : List Nat) : Bool :=
  let clusterPoints := idxs.map (toPt w)
  if clusterPoints.length > thr then
    let hull := getConvexHull clusterPoints
    if hull.length > 2 then
      let hullArea := polygonArea hull
      if 0 < hullArea then
        decide ((clusterPoints.length : ℚ) / hullArea > (0.75 : ℚ))
      else false
    else false
  else false

/-- Pass 4 of `performLeakDetection`, processing scan indices `0, …, k-1`:
state = (visited, needsRefinement).  Once the flag is set the loop breaks
(`if (needsRefinement) break`), which we model by leaving the state
untouched. -/
def clusterScanAux (img : Image) (P : List RGB) (tol : Int) (flat : Option Int)
    (thr : Nat) : Nat → Finset Nat × Bool
  | 0 => (∅, false)
  | k + 1 =>
      let st := clusterScanAux img P tol flat thr k
      if st.2 then st
      else if leakAt img P tol flat thr k = true ∧ k ∉ st.1 then
        let r := bfsRun (pixelCount img) (leakAt img P tol flat thr)
          (windowNeighbors img.width img.height 3) [k] (insert k st.1) []
        (r.2, blobCheck thr img.width r.1)
      else st

/-- The result of pass 4 over the whole bitmap. -/
def clusterScan (img : Image) (P : List RGB) (tol : Int) (flat : Option Int)
    (thr : Nat) : Bool :=
  (clusterScanAux img P tol flat thr (pixelCount img)).2

/-- The worker's detection result (`leakMapUrl` carries the heatmap, here
represented by the set of highlighted pixels). -/
structure LeakDetectionResult where
  needsRefinement : Bool
  leakMapUrl : Option (Nat → Bool)

/-- `performLeakDetection`: decode the image (any decode failure or other
exception is caught and turned into the fail-safe result), classify leak
pixels, build the heatmap, early-return `false` when fewer leak pixels than
the cluster threshold exist, otherwise run the cluster/shape analysis. -/
def performLeakDetection (decoded : Except String Image) (P : List RGB)
    (thr : Nat) (tol : Int) (flat : Option Int) : LeakDetectionResult :=
  match decoded with
  | .error _ => ⟨false, none⟩
  | .ok img =>
      let heat := leakAt img P tol flat thr
      if totalLeakedPixels img P tol flat thr < thr then ⟨false, some heat⟩
      else ⟨clusterScan img P tol flat thr, some heat⟩

/-! ## The worker's `performDiffing` and the caller-side wrappers -/

/-- The body of `performDiffing`'s `try` block: a dimension mismatch throws
(`.error`), otherwise the differing pixels are collected and `null`
(`none`) is returned exactly when no pixel differs above the threshold. -/
def performDiffingTry (a b : Image) (t : Int) : Except String (Option (Nat → Bool)) :=
  if a.width ≠ b.width ∨ a.height ≠ b.height then
    .error "WORKER: Image dimensions do not match for diffing."
  else
    let marked : Nat → Bool := fun i =>
      decide (i < pixelCount a) && decide (colorDistanceSq (a.pix i) (b.pix i) > t)
    if (List.range (pixelCount a)).any
        (fun i => decide (colorDistanceSq (a.pix i) (b.pix i) > t)) then
      .ok (some marked)
    else .ok none

/-- `performDiffing`: the `catch` block turns any thrown error (including
the dimension mismatch) into a `null` result. -/
def performDiffing (a b : Image) (t : Int) : Option (Nat → Bool) :=
  match performDiffingTry a b t with
  | .error _ => none
  | .ok v => v

/-- `generateDiffMap` as seen by the caller: the worker replies with
`diffMapUrl` and the caller resolves `diffMapUrl || null`; worker errors
also resolve `null`.  `diffThresholdSq` is fixed at 100. -/
def generateDiffMap (a b : Image) : Option (Nat → Bool) :=
  performDiffing a b 100

/-- The map styles of the application. -/
inductive MapStyle where
  | photorealistic
  | pixel
deriving DecidableEq

/-- The per-style threshold bundle selected by `hasBlueprintLeaks`:
`(clusterSizeThreshold, colorMatchThresholdSq, flatnessThresholdSq)`. -/
def styleParams : MapStyle → Nat × Int × Option Int
  | .pixel => (1000, 400, none)
  | .photorealistic => (400, 100, some 50)

/-- What the `hasBlueprintLeaks` promise does with a worker event: a message
carrying an `error` field rejects, a normal message resolves with
`{needsRefinement: result, leakMapUrl: leakMapUrl || null}`, and a
worker-level error event resolves fail-safe with
`{needsRefinement: false, leakMapUrl: null}`. -/
inductive WorkerEvent where
  | message (error : Option String) (result : Bool) (leakMapUrl : Option (Nat → Bool))
  | errorEvent

def resolveLeakDetection : WorkerEvent → Except String LeakDetectionResult
  | .message (some e) _ _ => .error e
  | .message none r m => .ok ⟨r, m⟩
  | .errorEvent => .ok ⟨false, none⟩

/-- `hasBlueprintLeaks` when the worker runs to completion: the worker posts
the result of `performLeakDetection` (which never throws — its `catch`
returns the fail-safe result) with no error field. -/
def hasBlueprintLeaks (decoded : Except String Image) (style : MapStyle) :
    Except String LeakDetectionResult :=
  let ps := styleParams style
  let res := performLeakDetection decoded blueprintColorsRGB ps.1 ps.2.1 ps.2.2
  resolveLeakDetection (.message none res.needsRefinement res.leakMapUrl)

/-- `hasBlueprintLeaks` when the worker itself errors (`worker.onerror`). -/
def hasBlueprintLeaksOnWorkerError : Except String LeakDetectionResult :=
  resolveLeakDetection .errorEvent

/-! ## The refinement controller (`useMapGeneration`)

The controller's external collaborators (generator, refiner, diff map,
leak analysis) are modelled as oracles: the images and diff maps they
return, and the pass/fail verdict of each analysis, indexed by revision
number.  Only the history bookkeeping is the controller's own logic. -/

/-- `finalReason` values of a revision record. -/
inductive FinalReason where
  | passed
  | limitReached
deriving DecidableEq

/-- A revision record (`AnalysisRecord` in `types.ts`).  `isManual` is an
optional field in the source, absent (falsy) on loop records. -/
structure AnalysisRecord where
  revision : Nat
  mapImage : String
  aiChangeMap : Option String
  leakMap : String
  passed : Bool
  isFinal : Bool
  finalReason : Option FinalReason
  isManual : Bool
deriving DecidableEq

/-- A loop record as pushed by `generateMap`:
`finalReason: isFinal ? (passed ? 'passed' : 'limit_reached') : null`. -/
def mkRecord (revision : Nat) (img : String) (diff : Option String) (lm : String)
    (passed : Bool) (isFinal : Bool) : AnalysisRecord :=
  ⟨revision, img, diff, lm, passed, isFinal,
    if isFinal then some (if passed then .passed else .limitReached) else none,
    false⟩

/-- The refinement `while` loop of `generateMap`:
`while (!passedCheck && refinementCount < maxRefinements)`, where revision
`k + 1` is analysed with verdict `analysisPassed (k + 1)` and
`isFinal = passedCheck || refinementCount >= maxRefinements`. -/
def refinementLoop (maxRefinements : Nat) (refinedImages : Nat → String)
    (diffs : Nat → Option String) (leakMaps : Nat → String)
    (analysisPassed : Nat → Bool) :
    Nat → Bool → List AnalysisRecord → List AnalysisRecord
  | count, passed, hist =>
      if _h : ¬passed = true ∧ count < maxRefinements then
        refinementLoop maxRefinements refinedImages diffs leakMaps analysisPassed
          (count + 1) (analysisPassed (count + 1 + 1))
          (hist ++ [mkRecord (count + 1 + 1) (refinedImages (count + 1))
            (diffs (count + 1)) (leakMaps (count + 1 + 1))
            (analysisPassed (count + 1 + 1))
            (decide (analysisPassed (count + 1 + 1) = true ∨
              maxRefinements ≤ count + 1))])
      else hist
termination_by count _ _ => maxRefinements - count

/-- The history built by one full `generateMap` run (initial generation,
initial analysis, then the refinement loop), as a function of the oracles. -/
def generateMapHistory (maxRefinements : Nat) (initialImage : String)
    (refinedImages : Nat → String) (diffs : Nat → Option String)
    (leakMaps : Nat → String) (analysisPassed : Nat → Bool) :
    List AnalysisRecord :=
  let passed1 := analysisPassed 1
  let fin1 := passed1 = true ∨ maxRefinements = 0
  refinementLoop maxRefinements refinedImages diffs leakMaps analysisPassed 0 passed1
    [mkRecord 1 initialImage none (leakMaps 1) passed1 (decide fin1)]

/-- `manualRefine`'s clearing of the previous final record:
`if (lastRevision && lastRevision.isFinal) { isFinal = false; finalReason = null }`. -/
def clearLastFinal (hist : List AnalysisRecord) : List AnalysisRecord :=
  match hist.getLast? with
  | none => hist
  | some last =>
      if last.isFinal then
        hist.dropLast ++ [{ last with isFinal := false, finalReason := none }]
      else hist

/-- `manualRefine` on the successful path, as a pure function of the current
state and of the external call results.  Guards: no final image or a loop
in flight is a no-op, as is a missing/invalid API key.  The appended record
is unconditionally final and tagged `isManual: true`. -/
def manualRefine (generatedImage : Option String) (isLoading : Bool)
    (apiKeyOk : Bool) (hist : List AnalysisRecord) (refined : String)
    (aiChange : Option String) (needsRefinement : Bool) (leakMap : String) :
    List AnalysisRecord :=
  if generatedImage = none ∨ isLoading = true then hist
  else if apiKeyOk = false then hist
  else
    let passedCheck := !needsRefinement
    clearLastFinal hist ++
      [{ revision := ((hist.getLast?).map AnalysisRecord.revision).getD 0 + 1,
         mapImage := refined, aiChangeMap := aiChange, leakMap := leakMap,
         passed := passedCheck, isFinal := true,
         finalReason := some (if passedCheck then .passed else .limitReached),
         isManual := true }]

/-- The invariant of C9 for one record: `finalReason = 'passed'` implies
`passed`, and `finalReason = 'limit_reached'` implies `!passed`. -/
def ReasonConsistent (r : AnalysisRecord) : Prop :=
  (r.finalReason = some .passed → r.passed = true) ∧
    (r.finalReason = some .limitReached → r.passed = false)

/-- Every record of a history satisfies `ReasonConsistent`. -/
def HistoryReasonsOk (hist : List AnalysisRecord) : Prop :=
  ∀ r ∈ hist, ReasonConsistent r

instance (r : AnalysisRecord) : Decidable (ReasonConsistent r) := by
  unfold ReasonConsistent; infer_instance

instance (hist : List AnalysisRecord) : Decidable (HistoryReasonsOk hist) := by
  unfold HistoryReasonsOk; infer_instance

/-! ## Coordinate arithmetic for the pixel grid -/

theorem pixel_coords {w h i : Nat} (hi : i < w * h) :
    (i / w) * w + i % w = i ∧ i % w < w ∧ i / w < h := by
  have hw : 0 < w := by
    rcases Nat.eq_zero_or_pos w with rfl | hw
    · simp at hi
    · exact hw
  refine ⟨?_, Nat.mod_lt _ hw, ?_⟩
  · rw [Nat.mul_comm]
    exact Nat.div_add_mod i w
  · rw [Nat.div_lt_iff_lt_mul hw, Nat.mul_comm]
    exact hi

theorem decomp_mod_div {w : Nat} (hw : 0 < w) {x y : Nat} (hx : x < w) :
    (y * w + x) % w = x ∧ (y * w + x) / w = y := by
  constructor
  · rw [Nat.mul_comm y w, Nat.mul_add_mod]
    exact Nat.mod_eq_of_lt hx
  · rw [Nat.mul_comm y w, Nat.mul_add_div hw]
    simp [Nat.div_eq_of_lt hx]

theorem idx_lt_of_coords {w h x y : Nat} (hx : x < w) (hy : y < h) :
    y * w + x < w * h := by
  calc y * w + x < y * w + w := by omega
    _ = (y + 1) * w := by ring
    _ ≤ h * w := Nat.mul_le_mul (by omega) (le_refl w)
    _ = w * h := Nat.mul_comm _ _

/-- Membership in the square search window, characterised by coordinates:
a distinct valid pixel whose `x` and `y` distances to `i` are both at most
the radius. -/
theorem windowNeighbors_mem {w h r i j : Nat} (hi : i < w * h) :
    j ∈ windowNeighbors w h r i ↔
      (j < w * h ∧ j ≠ i ∧
        (((j % w : Nat) : Int) - ((i % w : Nat) : Int)).natAbs ≤ r ∧
        (((j / w : Nat) : Int) - ((i / w : Nat) : Int)).natAbs ≤ r) := by
  obtain ⟨hideq, hxw, hyh⟩ := pixel_coords hi
  have hw : 0 < w := lt_of_le_of_lt (Nat.zero_le _) hxw
  constructor
  · intro hj
    simp only [windowNeighbors] at hj
    obtain ⟨dy, hdy, hj2⟩ := List.mem_flatMap.mp hj
    obtain ⟨dx, hdx, hsome⟩ := List.mem_filterMap.mp hj2
    rw [List.mem_range] at hdy hdx
    by_cases hzero : ((dx : Int) - (r : Int) = 0 ∧ (dy : Int) - (r : Int) = 0)
    · rw [if_pos hzero] at hsome
      exact absurd hsome (by simp)
    · rw [if_neg hzero] at hsome
      set cX : Int := (i % w : Nat) + ((dx : Int) - (r : Int)) with hcX
      set cY : Int := (i / w : Nat) + ((dy : Int) - (r : Int)) with hcY
      by_cases hbound : (0 ≤ cX ∧ cX < (w : Int) ∧ 0 ≤ cY ∧ cY < (h : Int))
      · rw [if_pos hbound] at hsome
        obtain ⟨hb1, hb2, hb3, hb4⟩ := hbound
        have hjval : j = (cY * (w : Int) + cX).toNat := by
          exact (Option.some_inj.mp hsome).symm
        have hcast : cY * (w : Int) + cX = ((cY.toNat * w + cX.toNat : Nat) : Int) := by
          push_cast [Int.toNat_of_nonneg hb1, Int.toNat_of_nonneg hb3]
          ring
        have hjnat : j = cY.toNat * w + cX.toNat := by
          rw [hjval, hcast, Int.toNat_natCast]
        have hcXw : cX.toNat < w := by omega
        have hcYh : cY.toNat < h := by omega
        obtain ⟨hmod, hdiv⟩ := @decomp_mod_div w hw cX.toNat cY.toNat hcXw
        have hjmod : j % w = cX.toNat := by rw [hjnat, hmod]
        have hjdiv : j / w = cY.toNat := by rw [hjnat, hdiv]
        refine ⟨hjnat ▸ idx_lt_of_coords hcXw hcYh, ?_, ?_, ?_⟩
        · intro hji
          apply hzero
          have hmodeq : j % w = i % w := by rw [hji]
          have hdiveq : j / w = i / w := by rw [hji]
          rw [hjmod] at hmodeq
          rw [hjdiv] at hdiveq
          omega
        · rw [hjmod]; omega
        · rw [hjdiv]; omega
      · rw [if_neg hbound] at hsome
        exact absurd hsome (by simp)
  · rintro ⟨hjN, hjne, hdx, hdy⟩
    obtain ⟨hjdeq, hjxw, hjyh⟩ := pixel_coords hjN
    simp only [windowNeighbors]
    refine List.mem_flatMap.mpr ⟨(((j / w : Nat) : Int) - ((i / w : Nat) : Int) + r).toNat,
      List.mem_range.mpr (by omega), List.mem_filterMap.mpr
        ⟨(((j % w : Nat) : Int) - ((i % w : Nat) : Int) + r).toNat,
          List.mem_range.mpr (by omega), ?_⟩⟩
    dsimp only
    have hnx : (((((j % w : Nat) : Int) - ((i % w : Nat) : Int) + r).toNat : Int)) - (r : Int)
        = ((j % w : Nat) : Int) - ((i % w : Nat) : Int) := by omega
    have hny : (((((j / w : Nat) : Int) - ((i / w : Nat) : Int) + r).toNat : Int)) - (r : Int)
        = ((j / w : Nat) : Int) - ((i / w : Nat) : Int) := by omega
    rw [hnx, hny]
    have hne : ¬(((j % w : Nat) : Int) - ((i % w : Nat) : Int) = 0 ∧ ((j / w : Nat) : Int) - ((i / w : Nat) : Int) = 0) := by
      rintro ⟨hz1, hz2⟩
      have e1 : j % w = i % w := by omega
      have e2 : j / w = i / w := by omega
      exact hjne (by rw [← hjdeq, ← hideq, e1, e2])
    have ex1 : ((i % w : Nat) : Int) + (((j % w : Nat) : Int) - ((i % w : Nat) : Int))
        = ((j % w : Nat) : Int) := by ring
    have ex2 : ((i / w : Nat) : Int) + (((j / w : Nat) : Int) - ((i / w : Nat) : Int))
        = ((j / w : Nat) : Int) := by ring
    rw [if_neg hne, ex1, ex2]
    rw [if_pos ⟨Int.natCast_nonneg _, by exact_mod_cast hjxw,
      Int.natCast_nonneg _, by exact_mod_cast hjyh⟩]
    have key : ((j / w : Nat) : Int) * (w : Int) + ((j % w : Nat) : Int)
        = ((j / w * w + j % w : Nat) : Int) := by
      rw [Nat.cast_add, Nat.cast_mul]
    rw [key, Int.toNat_natCast, hjdeq]

theorem windowNeighbors_lt {w h r i j : Nat} (hi : i < w * h)
    (hj : j ∈ windowNeighbors w h r i) : j < w * h :=
  ((windowNeighbors_mem hi).mp hj).1

theorem windowNeighbors_symm {w h r : Nat} (i j : Nat) (hi : i < w * h)
    (hj : j < w * h) : j ∈ windowNeighbors w h r i → i ∈ windowNeighbors w h r j := by
  rw [windowNeighbors_mem hi, windowNeighbors_mem hj]
  rintro ⟨h1, h2, h3, h4⟩
  exact ⟨hi, fun he => h2 he.symm, by omega, by omega⟩

theorem fourNeighbors_mem {w h i j : Nat} :
    j ∈ fourNeighbors w h i ↔
      ((0 < i / w ∧ j = i - w) ∨ (i / w < h - 1 ∧ j = i + w) ∨
        (0 < i % w ∧ j = i - 1) ∨ (i % w < w - 1 ∧ j = i + 1)) := by
  unfold fourNeighbors
  by_cases h1 : 0 < i / w <;> by_cases h2 : i / w < h - 1 <;>
    by_cases h3 : 0 < i % w <;> by_cases h4 : i % w < w - 1 <;>
      simp [h1, h2, h3, h4] <;> tauto

theorem fourNeighbors_lt {w h i j : Nat} (hi : i < w * h)
    (hj : j ∈ fourNeighbors w h i) : j < w * h := by
  obtain ⟨hd, hxw, hyh⟩ := pixel_coords hi
  rcases fourNeighbors_mem.mp hj with ⟨hc, rfl⟩ | ⟨hc, rfl⟩ | ⟨hc, rfl⟩ | ⟨hc, rfl⟩
  · omega
  · have heq : i + w = (i / w + 1) * w + i % w := by
      rw [Nat.add_mul, one_mul]; omega
    rw [heq]
    exact @idx_lt_of_coords w h (i % w) (i / w + 1) hxw
      (by revert hc; generalize i / w = q; intro hc; omega)
  · omega
  · have heq : i + 1 = (i / w) * w + (i % w + 1) := by omega
    rw [heq]; exact @idx_lt_of_coords w h (i % w + 1) (i / w) (by omega) hyh

theorem mem_fourNeighbors_succ {w h p : Nat} (hx : p % w < w - 1) :
    p + 1 ∈ fourNeighbors w h p :=
  fourNeighbors_mem.mpr (Or.inr (Or.inr (Or.inr ⟨hx, rfl⟩)))

theorem mem_fourNeighbors_below {w h p : Nat} (hp : p + w < w * h) :
    p + w ∈ fourNeighbors w h p := by
  have hw : 0 < w := by
    rcases Nat.eq_zero_or_pos w with rfl | hw
    · simp at hp
    · exact hw
  have e1 : (h - 1) * w = h * w - w := Nat.sub_one_mul h w
  have e2 : w * h = h * w := Nat.mul_comm w h
  have hcond : p / w < h - 1 := by
    rw [Nat.div_lt_iff_lt_mul hw]
    omega
  exact fourNeighbors_mem.mpr (Or.inr (Or.inl ⟨hcond, rfl⟩))

theorem mem_windowNeighbors_succ {w h r p : Nat} (hr : 0 < r) (hp : p < w * h)
    (hx : p % w < w - 1) : p + 1 ∈ windowNeighbors w h r p := by
  obtain ⟨hd, hxw, hyh⟩ := pixel_coords hp
  have hw : 0 < w := lt_of_le_of_lt (Nat.zero_le _) hxw
  have hrep : p + 1 = (p / w) * w + (p % w + 1) := by omega
  obtain ⟨hmod, hdiv⟩ := @decomp_mod_div w hw (p % w + 1) (p / w) (by omega)
  rw [windowNeighbors_mem hp]
  refine ⟨by rw [hrep]; exact idx_lt_of_coords (by omega) hyh, by omega, ?_, ?_⟩
  · rw [hrep, hmod]; omega
  · rw [hrep, hdiv]; omega

theorem mem_windowNeighbors_below {w h r p : Nat} (hr : 0 < r) (hp : p + w < w * h) :
    p + w ∈ windowNeighbors w h r p := by
  have hw : 0 < w := by
    rcases Nat.eq_zero_or_pos w with rfl | hw
    · simp at hp
    · exact hw
  have hpN : p < w * h := by omega
  obtain ⟨hd, hxw, hyh⟩ := pixel_coords hpN
  have hrep : p + w = (p / w + 1) * w + p % w := by
    rw [Nat.add_mul, one_mul]; omega
  obtain ⟨hmod, hdiv⟩ := @decomp_mod_div w hw (p % w) (p / w + 1) hxw
  rw [windowNeighbors_mem hpN]
  refine ⟨hp, by omega, ?_, ?_⟩
  · rw [hrep, hmod]; omega
  · rw [hrep, hdiv]; omega

/-- Any pixel of the grid is connected to pixel 0 whenever the whole grid
is in the mask, for any adjacency containing the right- and down-steps. -/
theorem grid_connected {w h : Nat} {good : Nat → Bool} {nbrs : Nat → List Nat}
    (hgood : ∀ j, j < w * h → good j = true)
    (hstep1 : ∀ p, p < w * h → p % w < w - 1 → (p + 1) ∈ nbrs p)
    (hstepw : ∀ p, p + w < w * h → (p + w) ∈ nbrs p) :
    ∀ i, i < w * h → Connected (w * h) good nbrs 0 i := by
  intro i
  induction i using Nat.strong_induction_on with
  | _ i ih =>
    intro hi
    obtain ⟨hd, hxw, hyh⟩ := pixel_coords hi
    have hw : 0 < w := lt_of_le_of_lt (Nat.zero_le _) hxw
    rcases Nat.eq_zero_or_pos i with rfl | hpos
    · exact Relation.ReflTransGen.refl
    · by_cases hx : 0 < i % w
      · have hprev : i - 1 < w * h := by omega
        have hrep : i - 1 = (i / w) * w + (i % w - 1) := by omega
        have hmod : (i - 1) % w = i % w - 1 := by
          rw [hrep]; exact (decomp_mod_div hw (by omega)).1
        have hstep : i ∈ nbrs (i - 1) := by
          have := hstep1 (i - 1) hprev (by omega)
          have heq : i - 1 + 1 = i := by omega
          rwa [heq] at this
        exact Relation.ReflTransGen.tail (ih (i - 1) (by omega) hprev)
          ⟨hstep, hi, hgood i hi⟩
      · have hxeq : i % w = 0 := by omega
        have hyw : 0 < i / w := by
          rcases Nat.eq_zero_or_pos (i / w) with h0 | hq
          · rw [h0, Nat.zero_mul] at hd
            omega
          · exact hq
        have hiw : w ≤ i := by
          have h1 : 1 * w ≤ (i / w) * w := Nat.mul_le_mul (by omega) (le_refl w)
          omega
        have hprev : i - w < w * h := by omega
        have hstep : i ∈ nbrs (i - w) := by
          have heq : (i - w) + w = i := by omega
          have := hstepw (i - w) (by omega)
          rwa [heq] at this
        exact Relation.ReflTransGen.tail (ih (i - w) (by omega) hprev)
          ⟨hstep, hi, hgood i hi⟩

/-! ## Order-independence of the hull computation

The worker builds each cluster's point list in BFS discovery order and
sorts it inside `getConvexHull`; the result therefore only depends on the
*set* of cluster pixels.  This licenses a declarative blob predicate on the
pixel set. -/

theorem sortPoints_eq_of_perm {l₁ l₂ : List Pt} (h : l₁.Perm l₂) :
    sortPoints l₁ = sortPoints l₂ :=
  List.eq_of_perm_of_sorted
    ((List.perm_insertionSort ptLE l₁).trans
      (h.trans (List.perm_insertionSort ptLE l₂).symm))
    (List.sorted_insertionSort ptLE l₁) (List.sorted_insertionSort ptLE l₂)

theorem getConvexHull_perm {l₁ l₂ : List Pt} (h : l₁.Perm l₂)
    (hlen : 3 ≤ l₁.length) : getConvexHull l₁ = getConvexHull l₂ := by
  unfold getConvexHull
  rw [if_neg (by omega), if_neg (by rw [← h.length_eq]; omega),
    sortPoints_eq_of_perm h]

theorem blobCheck_short {thr w : Nat} {l : List Nat} (hle : l.length ≤ 2) :
    blobCheck thr w l = false := by
  simp only [blobCheck, List.length_map]
  by_cases hthr : l.length > thr
  · rw [if_pos hthr]
    have hh : getConvexHull (List.map (toPt w) l) = List.map (toPt w) l := by
      unfold getConvexHull
      rw [if_pos (by simpa using hle)]
    rw [hh, if_neg (by simp only [List.length_map]; omega)]
  · rw [if_neg hthr]

theorem blobCheck_congr {thr w : Nat} {l₁ l₂ : List Nat} (h : l₁.Perm l₂) :
    blobCheck thr w l₁ = blobCheck thr w l₂ := by
  have hlen : l₁.length = l₂.length := h.length_eq
  by_cases h3 : 3 ≤ l₁.length
  · have hp : (List.map (toPt w) l₁).Perm (List.map (toPt w) l₂) := h.map _
    simp only [blobCheck, List.length_map]
    rw [getConvexHull_perm hp (by simpa using h3), hlen]
  · rw [blobCheck_short (by omega), blobCheck_short (by omega)]

/-- The convex hull of a cluster given as a set of pixel indices. -/
def clusterHull (w : Nat) (C : Finset Nat) : List Pt :=
  getConvexHull ((C.sort (· ≤ ·)).map (toPt w))

/-- The declarative blob property of a cluster: pixel count above the
cluster size threshold, convex hull with at least 3 vertices and strictly
positive area, and solidity above the 0.75 solidity threshold. -/
def BlobCluster (thr w : Nat) (C : Finset Nat) : Prop :=
  C.card > thr ∧ (clusterHull w C).length > 2 ∧ 0 < polygonArea (clusterHull w C) ∧
    (C.card : ℚ) / polygonArea (clusterHull w C) > (0.75 : ℚ)

theorem blobCheck_sort_iff {thr w : Nat} (C : Finset Nat) :
    blobCheck thr w (C.sort (· ≤ ·)) = true ↔ BlobCluster thr w C := by
  unfold blobCheck BlobCluster clusterHull
  have hlen : (C.sort (· ≤ ·)).length = C.card := Finset.length_sort _
  simp only [List.length_map, hlen]
  split_ifs with h1 h2 h3
  · simp [h1, h2, h3]
  · simp [h3]
  · simp [h2]
  · simp [h1]

/-- The worker's blob test on any duplicate-free pixel list computes the
declarative blob property of its pixel set. -/
theorem blobCheck_iff {thr w : Nat} {l : List Nat} (hnd : l.Nodup) :
    blobCheck thr w l = true ↔ BlobCluster thr w l.toFinset := by
  have hperm : l.Perm (l.toFinset.sort (· ≤ ·)) :=
    List.perm_of_nodup_nodup_toFinset_eq hnd (Finset.sort_nodup _ _)
      (by rw [Finset.sort_toFinset])
  rw [blobCheck_congr hperm, blobCheck_sort_iff]

/-! ## Correctness of the cluster scan (pass 4) -/

/-- A cluster of the combined leak mask: a maximal connected set of leak
pixels under the radius-3 square-window adjacency of pass 4. -/
def IsLeakCluster (img : Image) (P : List RGB) (tol : Int) (flat : Option Int)
    (thr : Nat) (C : Finset Nat) : Prop :=
  IsComponent (pixelCount img) (leakAt img P tol flat thr)
    (windowNeighbors img.width img.height 3) C

/-- The declarative detection criterion: some cluster of the leak mask is a
blob (big, non-degenerate hull, solidity above the threshold). -/
def NeedsRefinementSpec (img : Image) (P : List RGB) (tol : Int)
    (flat : Option Int) (thr : Nat) : Prop :=
  ∃ C : Finset Nat, IsLeakCluster img P tol flat thr C ∧ BlobCluster thr img.width C

theorem clusterScanAux_spec (img : Image) (P : List RGB) (tol : Int)
    (flat : Option Int) (thr : Nat) :
    ∀ k, k ≤ pixelCount img →
      (∀ v ∈ (clusterScanAux img P tol flat thr k).1,
          leakAt img P tol flat thr v = true ∧ v < pixelCount img) ∧
      (∀ v ∈ (clusterScanAux img P tol flat thr k).1,
          ∀ b ∈ windowNeighbors img.width img.height 3 v,
            b < pixelCount img → leakAt img P tol flat thr b = true →
              b ∈ (clusterScanAux img P tol flat thr k).1) ∧
      ((clusterScanAux img P tol flat thr k).2 = false →
        ∀ j, j < k → leakAt img P tol flat thr j = true →
          j ∈ (clusterScanAux img P tol flat thr k).1) ∧
      ((clusterScanAux img P tol flat thr k).2 = true ↔
        ∃ C : Finset Nat, IsLeakCluster img P tol flat thr C ∧
          C ⊆ (clusterScanAux img P tol flat thr k).1 ∧ BlobCluster thr img.width C) := by
  intro k
  induction k with
  | zero =>
    intro _
    simp only [clusterScanAux]
    refine ⟨by simp, by simp, by simp, ?_⟩
    constructor
    · intro h; exact absurd h (by simp)
    · rintro ⟨C, hcl, hsub, hblob⟩
      obtain ⟨x, hx⟩ := hcl.1
      exact absurd (hsub hx) (by simp)
  | succ k ih =>
    intro hk1
    have hkN : k < pixelCount img := hk1
    obtain ⟨i1, i2, i3, i4⟩ := ih (le_of_lt hkN)
    simp only [clusterScanAux]
    by_cases hflag : (clusterScanAux img P tol flat thr k).2 = true
    · rw [if_pos hflag]
      refine ⟨i1, i2, ?_, i4⟩
      intro hfalse
      rw [hflag] at hfalse
      exact absurd hfalse (by simp)
    · rw [if_neg hflag]
      have hflagf : (clusterScanAux img P tol flat thr k).2 = false := by
        revert hflag; cases (clusterScanAux img P tol flat thr k).2 <;> simp
      by_cases hcond : leakAt img P tol flat thr k = true ∧
          k ∉ (clusterScanAux img P tol flat thr k).1
      · rw [if_pos hcond]
        have hsym : ∀ i j, i < pixelCount img → j < pixelCount img →
            (j ∈ windowNeighbors img.width img.height 3 i →
              i ∈ windowNeighbors img.width img.height 3 j) :=
          fun i j hi hj => windowNeighbors_symm i j hi hj
        have hclosed : ∀ v ∈ (clusterScanAux img P tol flat thr k).1,
            ∀ b ∈ windowNeighbors img.width img.height 3 v,
              b < pixelCount img → leakAt img P tol flat thr b = true →
                b ∈ (clusterScanAux img P tol flat thr k).1 := i2
        obtain ⟨b1, b2, b3, b4⟩ := bfsRun_component hsym hclosed hcond.2 hkN hcond.1
        refine ⟨?_, ?_, ?_, ?_⟩
        · intro v hv
          rw [b4] at hv
          rcases Finset.mem_union.mp hv with hv | hv
          · exact i1 v hv
          · exact ⟨(b3.2.1 v hv).2, (b3.2.1 v hv).1⟩
        · intro v hv b hb hbN hbg
          rw [b4] at hv ⊢
          rcases Finset.mem_union.mp hv with hv | hv
          · exact Finset.mem_union_left _ (i2 v hv b hb hbN hbg)
          · exact Finset.mem_union_right _ (b3.2.2.1 v hv b hb hbN hbg)
        · intro hfalse j hj hleak
          rw [b4]
          rcases Nat.lt_succ_iff_lt_or_eq.mp hj with hj | rfl
          · exact Finset.mem_union_left _ (i3 hflagf j hj hleak)
          · exact Finset.mem_union_right _
              (List.mem_toFinset.mpr ((b2 j).mpr Relation.ReflTransGen.refl))
        · constructor
          · intro hb
            refine ⟨_, b3, ?_, (blobCheck_iff b1).mp hb⟩
            rw [b4]
            exact Finset.subset_union_right
          · rintro ⟨C, hcl, hsub, hblob⟩
            by_cases hx : ∃ x, x ∈ C ∧
                x ∈ (bfsRun (pixelCount img) (leakAt img P tol flat thr)
                  (windowNeighbors img.width img.height 3) [k]
                  (insert k (clusterScanAux img P tol flat thr k).1) []).1.toFinset
            · obtain ⟨x, hxC, hxr⟩ := hx
              have hCeq := component_unique hcl b3 hxC hxr
              rw [(blobCheck_iff b1)]
              rw [← hCeq]
              exact hblob
            · push_neg at hx
              have hCsub : C ⊆ (clusterScanAux img P tol flat thr k).1 := by
                intro x hxC
                have := hsub hxC
                rw [b4] at this
                rcases Finset.mem_union.mp this with h | h
                · exact h
                · exact absurd h (hx x hxC)
              exact absurd (i4.mpr ⟨C, hcl, hCsub, hblob⟩) hflag
      · rw [if_neg hcond]
        refine ⟨i1, i2, ?_, i4⟩
        intro hfalse j hj hleak
        rcases Nat.lt_succ_iff_lt_or_eq.mp hj with hj | rfl
        · exact i3 hfalse j hj hleak
        · push_neg at hcond
          exact hcond hleak

/-- Pass 4 returns `true` exactly when some maximal connected cluster of the
leak mask is a blob. -/
theorem clusterScan_iff (img : Image) (P : List RGB) (tol : Int)
    (flat : Option Int) (thr : Nat) :
    clusterScan img P tol flat thr = true ↔
      NeedsRefinementSpec img P tol flat thr := by
  obtain ⟨s1, _, s3, s4⟩ :=
    clusterScanAux_spec img P tol flat thr (pixelCount img) (le_refl _)
  constructor
  · intro h
    obtain ⟨C, hcl, _, hblob⟩ := s4.mp h
    exact ⟨C, hcl, hblob⟩
  · rintro ⟨C, hcl, hblob⟩
    unfold clusterScan
    by_cases hres : (clusterScanAux img P tol flat thr (pixelCount img)).2 = true
    · exact hres
    · have hresf : (clusterScanAux img P tol flat thr (pixelCount img)).2 = false := by
        revert hres; cases (clusterScanAux img P tol flat thr (pixelCount img)).2 <;> simp
      have hCsub : C ⊆ (clusterScanAux img P tol flat thr (pixelCount img)).1 := by
        intro x hx
        exact s3 hresf x (hcl.2.1 x hx).1 (hcl.2.1 x hx).2
      exact s4.mpr ⟨C, hcl, hCsub, hblob⟩

/-- Any set of leak pixels has at most `totalLeakedPixels` elements. -/
theorem card_le_filter_length {N : Nat} {p : Nat → Bool} {C : Finset Nat}
    (h : ∀ x ∈ C, x < N ∧ p x = true) :
    C.card ≤ ((List.range N).filter p).length := by
  have hnd : ((List.range N).filter p).Nodup := (List.nodup_range N).filter _
  have hsub : C ⊆ ((List.range N).filter p).toFinset := by
    intro x hx
    rw [List.mem_toFinset, List.mem_filter, List.mem_range]
    exact ⟨(h x hx).1, (h x hx).2⟩
  calc C.card ≤ ((List.range N).filter p).toFinset.card := Finset.card_le_card hsub
    _ = ((List.range N).filter p).length := List.toFinset_card_of_nodup hnd

/-! ## Correctness of the flatness pass (pass 1) -/

/-- The flatness-visited set just before scan seed `s` is processed. -/
def flatVisitedBefore (img : Image) (flatT : Int) (thr : Nat) (s : Nat) : Finset Nat :=
  (flatnessScanAux img flatT thr s).1

/-- `R` is the 4-connected flat-colour region flood-filled from seed `s`:
exactly the pixels reachable from `s` through 4-directional steps whose
colour is within `flatT` of the *seed's* colour, avoiding pixels already
visited by earlier regions of the scan. -/
def IsFlatRegion (img : Image) (flatT : Int) (thr : Nat) (s : Nat)
    (R : Finset Nat) : Prop :=
  s < pixelCount img ∧ s ∉ flatVisitedBefore img flatT thr s ∧
    ∀ j, (j ∈ R ↔ ReachFrom (pixelCount img) (flatGoodFor img flatT s)
      (fourNeighbors img.width img.height) (flatVisitedBefore img flatT thr s) s j)

theorem flatnessScanAux_step_mono (img : Image) (flatT : Int) (thr : Nat)
    (k : Nat) : (flatnessScanAux img flatT thr k).2
      ⊆ (flatnessScanAux img flatT thr (k + 1)).2 := by
  simp only [flatnessScanAux]
  by_cases h1 : k ∈ (flatnessScanAux img flatT thr k).1
  · rw [if_pos h1]
  · rw [if_neg h1]
    by_cases h2 : (bfsRun (pixelCount img) (flatGoodFor img flatT k)
        (fourNeighbors img.width img.height) [k]
        (insert k (flatnessScanAux img flatT thr k).1) []).1.length > thr
    · rw [if_pos h2]
      exact Finset.subset_union_left
    · rw [if_neg h2]

theorem flatnessScanAux_mono (img : Image) (flatT : Int) (thr : Nat)
    {k m : Nat} (h : k ≤ m) : (flatnessScanAux img flatT thr k).2
      ⊆ (flatnessScanAux img flatT thr m).2 := by
  induction m with
  | zero =>
    have : k = 0 := Nat.le_zero.mp h
    subst this
    exact subset_rfl
  | succ m ihm =>
    by_cases hk : k = m + 1
    · subst hk
      exact subset_rfl
    · exact (ihm (by omega)).trans (flatnessScanAux_step_mono img flatT thr m)

/-- Every flood-filled region with strictly more pixels than the cluster
size threshold ends up entirely inside the flatness-marked set. -/
theorem flatRegion_marked (img : Image) (flatT : Int) (thr : Nat) {s : Nat}
    {R : Finset Nat} (hreg : IsFlatRegion img flatT thr s R)
    (hcard : R.card > thr) : R ⊆ flatMarked img flatT thr := by
  obtain ⟨hsN, hsV, hiff⟩ := hreg
  simp only [flatVisitedBefore] at hsV hiff
  obtain ⟨c1, c2, _⟩ := bfsRun_spec (pixelCount img) (flatGoodFor img flatT s)
    (fourNeighbors img.width img.height) (flatnessScanAux img flatT thr s).1 s hsV
  have hReq : R = (bfsRun (pixelCount img) (flatGoodFor img flatT s)
      (fourNeighbors img.width img.height) [s]
      (insert s (flatnessScanAux img flatT thr s).1) []).1.toFinset := by
    ext j
    rw [List.mem_toFinset, hiff j, c2 j]
  have hlen : (bfsRun (pixelCount img) (flatGoodFor img flatT s)
      (fourNeighbors img.width img.height) [s]
      (insert s (flatnessScanAux img flatT thr s).1) []).1.length = R.card := by
    rw [hReq, List.toFinset_card_of_nodup c1]
  have hstep : R ⊆ (flatnessScanAux img flatT thr (s + 1)).2 := by
    simp only [flatnessScanAux]
    rw [if_neg hsV, if_pos (by rw [hlen]; exact hcard), hReq]
    exact Finset.subset_union_right
  exact hstep.trans (flatnessScanAux_mono img flatT thr hsN)

/-- Claim C5, part 1: with the flatness pass enabled, every flood-filled
flat region larger than the cluster threshold has all of its pixels in the
final combined leak mask, for every palette and colour tolerance. -/
def FlatRegionsMarked (img : Image) (flatT : Int) (thr : Nat) : Prop :=
  ∀ s R, IsFlatRegion img flatT thr s R → R.card > thr →
    ∀ P tol i, i ∈ R → leakMask img P tol (some flatT) thr i = true

/-- Claim C5, part 2: pixels marked by the flatness pass are skipped by the
palette-match pass — their final mask value is `true` independently of the
palette and tolerance. -/
def FlatMarkedSkipsPalette (img : Image) (flatT : Int) (thr : Nat) : Prop :=
  ∀ i, pass1Mask img (some flatT) thr i = true →
    ∀ P tol P' tol', leakMask img P tol (some flatT) thr i
      = leakMask img P' tol' (some flatT) thr i

/-- Claim C5, parts 1 and 2 bundled. -/
def FlatnessPassSound (img : Image) (flatT : Int) (thr : Nat) : Prop :=
  FlatRegionsMarked img flatT thr ∧ FlatMarkedSkipsPalette img flatT thr

/-- Claim C5, part 3: with no flatness threshold the flatness pass marks no
pixel — the combined mask is the palette-match mask alone. -/
def FlatnessPassSkippedAll (img : Image) (thr : Nat) : Prop :=
  ∀ P tol i, leakMask img P tol none thr i = paletteMatch img P tol i

/-! ## The convex hull of the full pixel grid

For the uniform-bitmap analysis (claim C4) we compute the monotone-chain
hull of all grid points of a `w × h` bitmap with `w, h ≥ 2`: the four
corners. -/

/-- The grid points in the order produced by the worker's sort (by `x`,
ties by `y`): column-major enumeration. -/
def colMajor (w h : Nat) : List Pt :=
  (List.range (w * h)).map (fun i => ⟨((i / h : Nat) : Int), ((i % h : Nat) : Int)⟩)

/-- The grid points in row-major order (the cluster points of the full
grid, in index order). -/
def rowMajor (w h : Nat) : List Pt :=
  (List.range (w * h)).map (toPt w)

theorem mem_rowMajor {w h : Nat} {p : Pt} :
    p ∈ rowMajor w h ↔ ∃ x y : Nat, x < w ∧ y < h ∧ p = ⟨(x : Int), (y : Int)⟩ := by
  unfold rowMajor
  rw [List.mem_map]
  constructor
  · rintro ⟨i, hi, rfl⟩
    rw [List.mem_range] at hi
    obtain ⟨_, hxw, hyh⟩ := pixel_coords hi
    exact ⟨i % w, i / w, hxw, hyh, rfl⟩
  · rintro ⟨x, y, hx, hy, rfl⟩
    have hw : 0 < w := lt_of_le_of_lt (Nat.zero_le _) hx
    obtain ⟨hmod, hdiv⟩ := @decomp_mod_div w hw x y hx
    exact ⟨y * w + x, List.mem_range.mpr (idx_lt_of_coords hx hy),
      by rw [toPt, hmod, hdiv]⟩

theorem mem_colMajor {w h : Nat} {p : Pt} :
    p ∈ colMajor w h ↔ ∃ x y : Nat, x < w ∧ y < h ∧ p = ⟨(x : Int), (y : Int)⟩ := by
  unfold colMajor
  rw [List.mem_map]
  constructor
  · rintro ⟨i, hi, rfl⟩
    rw [List.mem_range] at hi
    have hi' : i < h * w := by rw [Nat.mul_comm h w]; exact hi
    obtain ⟨_, hxh, hyw⟩ := pixel_coords hi'
    exact ⟨i / h, i % h, hyw, hxh, rfl⟩
  · rintro ⟨x, y, hx, hy, rfl⟩
    have hh : 0 < h := lt_of_le_of_lt (Nat.zero_le _) hy
    obtain ⟨hmod, hdiv⟩ := @decomp_mod_div h hh y x hy
    refine ⟨x * h + y, List.mem_range.mpr ?_, by rw [hmod, hdiv]⟩
    rw [Nat.mul_comm w h]
    exact idx_lt_of_coords hy hx

theorem rowMajor_nodup (w h : Nat) : (rowMajor w h).Nodup := by
  refine List.Nodup.map_on ?_ (List.nodup_range _)
  intro i hi j hj hij
  rw [List.mem_range] at hi hj
  obtain ⟨hdi, _, _⟩ := pixel_coords hi
  obtain ⟨hdj, _, _⟩ := pixel_coords hj
  have h1 : ((i % w : Nat) : Int) = ((j % w : Nat) : Int) := congrArg Pt.x hij
  have h2 : ((i / w : Nat) : Int) = ((j / w : Nat) : Int) := congrArg Pt.y hij
  have e1 : i % w = j % w := by exact_mod_cast h1
  have e2 : i / w = j / w := by exact_mod_cast h2
  rw [← hdi, ← hdj, e1, e2]

theorem colMajor_nodup (w h : Nat) : (colMajor w h).Nodup := by
  refine List.Nodup.map_on ?_ (List.nodup_range _)
  intro i hi j hj hij
  rw [List.mem_range] at hi hj
  have hi' : i < h * w := by rw [Nat.mul_comm h w]; exact hi
  have hj' : j < h * w := by rw [Nat.mul_comm h w]; exact hj
  obtain ⟨hdi, _, _⟩ := pixel_coords hi'
  obtain ⟨hdj, _, _⟩ := pixel_coords hj'
  have h1 : ((i / h : Nat) : Int) = ((j / h : Nat) : Int) := congrArg Pt.x hij
  have h2 : ((i % h : Nat) : Int) = ((j % h : Nat) : Int) := congrArg Pt.y hij
  have e1 : i / h = j / h := by exact_mod_cast h1
  have e2 : i % h = j % h := by exact_mod_cast h2
  rw [← hdi, ← hdj, e1, e2]

theorem colMajor_sorted (w h : Nat) : List.Sorted ptLE (colMajor w h) := by
  unfold colMajor
  refine List.Pairwise.map _ ?_ (List.pairwise_lt_range _)
  intro i j hij
  rcases Nat.eq_zero_or_pos h with rfl | hh
  · simp only [Nat.mod_zero, Nat.div_zero]
    refine Or.inr ⟨rfl, ?_⟩
    show ((i : Nat) : Int) ≤ ((j : Nat) : Int)
    exact_mod_cast Nat.le_of_lt hij
  · by_cases hdiv : i / h = j / h
    · refine Or.inr ⟨by rw [hdiv], ?_⟩
      show ((i % h : Nat) : Int) ≤ ((j % h : Nat) : Int)
      have hi := Nat.div_add_mod i h
      have hj := Nat.div_add_mod j h
      rw [hdiv] at hi
      have hle : i % h ≤ j % h := by omega
      exact_mod_cast hle
    · have hle : i / h ≤ j / h := Nat.div_le_div_right (le_of_lt hij)
      refine Or.inl ?_
      show ((i / h : Nat) : Int) < ((j / h : Nat) : Int)
      exact_mod_cast lt_of_le_of_ne hle hdiv

theorem rowMajor_perm_colMajor (w h : Nat) :
    (rowMajor w h).Perm (colMajor w h) := by
  refine List.perm_of_nodup_nodup_toFinset_eq (rowMajor_nodup w h)
    (colMajor_nodup w h) ?_
  ext p
  rw [List.mem_toFinset, List.mem_toFinset, mem_rowMajor, mem_colMajor]

theorem sortPoints_rowMajor (w h : Nat) :
    sortPoints (rowMajor w h) = colMajor w h :=
  List.eq_of_perm_of_sorted
    ((List.perm_insertionSort ptLE _).trans (rowMajor_perm_colMajor w h))
    (List.sorted_insertionSort ptLE _) (colMajor_sorted w h)

/-- One column of grid points, bottom to top. -/
def gridCol (x h : Nat) : List Pt :=
  (List.range h).map (fun y : Nat => ⟨(x : Int), (y : Int)⟩)

theorem colMajor_zero (h : Nat) : colMajor 0 h = [] := by
  simp [colMajor]

theorem colMajor_succ (w h : Nat) : colMajor (w + 1) h = colMajor w h ++ gridCol w h := by
  rcases Nat.eq_zero_or_pos h with rfl | hh
  · simp [colMajor, gridCol]
  · unfold colMajor gridCol
    rw [show (w + 1) * h = w * h + h by ring, List.range_add, List.map_append,
      List.map_map]
    congr 1
    apply List.map_congr_left
    intro y hy
    rw [List.mem_range] at hy
    have hd : (w * h + y) / h = w := by
      rw [Nat.mul_comm w h, Nat.mul_add_div hh]
      simp [Nat.div_eq_of_lt hy]
    have hm : (w * h + y) % h = y := by
      rw [Nat.mul_comm w h, Nat.mul_add_mod]
      exact Nat.mod_eq_of_lt hy
    simp [Function.comp, hd, hm]

theorem gridCol_succ (x h : Nat) :
    gridCol x (h + 1) = gridCol x h ++ [⟨(x : Int), (h : Int)⟩] := by
  unfold gridCol
  rw [List.range_succ, List.map_append]
  rfl

/-- Processing one full column `x ≥ 1` of grid points from a chain whose
top behaves like `[⟨x,0⟩, ⟨0,0⟩]` after the first push. -/
theorem foldColX (x : Nat) (hx : 1 ≤ x) (preChain : List Pt)
    (hpre : List.foldl hullPush preChain (gridCol x 1) = [⟨(x : Int), 0⟩, ⟨0, 0⟩]) :
    ∀ h, 2 ≤ h → List.foldl hullPush preChain (gridCol x h)
      = [⟨(x : Int), ((h - 1 : Nat) : Int)⟩, ⟨(x : Int), 0⟩, ⟨0, 0⟩] := by
  intro h hh
  induction h with
  | zero => omega
  | succ h ihh =>
    rcases Nat.lt_or_ge h 2 with hlt | hge
    · have h1 : h = 1 := by omega
      subst h1
      rw [gridCol_succ, List.foldl_append, hpre]
      show hullPush [⟨(x : Int), 0⟩, ⟨0, 0⟩] ⟨(x : Int), 1⟩ = _
      rw [hullPush]
      rw [if_neg ?pos]
      case pos =>
        show ¬ crossProduct ⟨0, 0⟩ ⟨(x : Int), 0⟩ ⟨(x : Int), 1⟩ ≤ 0
        simp only [crossProduct]
        push_neg
        have : (0 : Int) < (x : Int) := by exact_mod_cast hx
        nlinarith
      rfl
    · rw [gridCol_succ, List.foldl_append, ihh hge]
      show hullPush [⟨(x : Int), ((h - 1 : Nat) : Int)⟩, ⟨(x : Int), 0⟩, ⟨0, 0⟩]
          ⟨(x : Int), (h : Int)⟩ = _
      rw [hullPush, if_pos ?collinear]
      case collinear =>
        show crossProduct ⟨(x : Int), 0⟩ ⟨(x : Int), ((h - 1 : Nat) : Int)⟩
            ⟨(x : Int), (h : Int)⟩ ≤ 0
        simp only [crossProduct]
        ring_nf
        omega
      rw [hullPush, if_neg ?pos2]
      case pos2 =>
        show ¬ crossProduct ⟨0, 0⟩ ⟨(x : Int), 0⟩ ⟨(x : Int), (h : Int)⟩ ≤ 0
        simp only [crossProduct]
        push_neg
        have hx' : (0 : Int) < (x : Int) := by exact_mod_cast hx
        have hh' : (0 : Int) < (h : Int) := by exact_mod_cast (by omega : 0 < h)
        nlinarith
      rfl

/-- The fold of column 0 from the empty chain. -/
theorem foldCol0 : ∀ h, 2 ≤ h → List.foldl hullPush [] (gridCol 0 h)
    = [⟨0, ((h - 1 : Nat) : Int)⟩, ⟨0, 0⟩] := by
  intro h hh
  induction h with
  | zero => omega
  | succ h ihh =>
    rcases Nat.lt_or_ge h 2 with hlt | hge
    · have h1 : h = 1 := by omega
      subst h1
      rfl
    · rw [gridCol_succ, List.foldl_append, ihh hge]
      show hullPush [⟨0, ((h - 1 : Nat) : Int)⟩, ⟨0, 0⟩] ⟨0, (h : Int)⟩ = _
      rw [hullPush, if_pos ?coll0]
      case coll0 =>
        show crossProduct ⟨0, 0⟩ ⟨0, ((h - 1 : Nat) : Int)⟩ ⟨0, (h : Int)⟩ ≤ 0
        simp only [crossProduct]
        ring_nf
        omega
      rfl

theorem gridCol_one (x : Nat) : gridCol x 1 = [⟨(x : Int), 0⟩] := rfl

/-- Pushing the base of a new column onto the final chain of column 0. -/
theorem entryFromCol0 (h : Nat) (hh : 2 ≤ h) (x : Nat) (hx : 1 ≤ x) :
    hullPush [⟨0, ((h - 1 : Nat) : Int)⟩, ⟨0, 0⟩] ⟨(x : Int), 0⟩
      = [⟨(x : Int), 0⟩, ⟨0, 0⟩] := by
  rw [hullPush, if_pos ?c1]
  case c1 =>
    show crossProduct ⟨0, 0⟩ ⟨0, ((h - 1 : Nat) : Int)⟩ ⟨(x : Int), 0⟩ ≤ 0
    simp only [crossProduct]
    ring_nf
    have h1 : (1 : Int) ≤ ((h - 1 : Nat) : Int) := by exact_mod_cast (by omega : 1 ≤ h - 1)
    have h2 : (1 : Int) ≤ (x : Int) := by exact_mod_cast hx
    nlinarith
  rfl

/-- Pushing the base of a new column onto the final chain of an inner
column `x'` with `1 ≤ x' < x`. -/
theorem entryFromColX (h : Nat) (hh : 2 ≤ h) (x' x : Nat) (hlt : x' < x) :
    hullPush [⟨(x' : Int), ((h - 1 : Nat) : Int)⟩, ⟨(x' : Int), 0⟩, ⟨0, 0⟩]
      ⟨(x : Int), 0⟩ = [⟨(x : Int), 0⟩, ⟨0, 0⟩] := by
  rw [hullPush, if_pos ?c1]
  case c1 =>
    show crossProduct ⟨(x' : Int), 0⟩ ⟨(x' : Int), ((h - 1 : Nat) : Int)⟩
        ⟨(x : Int), 0⟩ ≤ 0
    simp only [crossProduct]
    ring_nf
    have h1 : (1 : Int) ≤ ((h - 1 : Nat) : Int) := by exact_mod_cast (by omega : 1 ≤ h - 1)
    have h2 : (x' : Int) < (x : Int) := by exact_mod_cast hlt
    nlinarith
  rw [hullPush, if_pos ?c2]
  case c2 =>
    show crossProduct ⟨0, 0⟩ ⟨(x' : Int), 0⟩ ⟨(x : Int), 0⟩ ≤ 0
    simp only [crossProduct]
    ring_nf
    omega
  rfl

/-- The full lower-hull chain of the column-major grid enumeration:
`[(w-1, h-1), (w-1, 0), (0, 0)]` in reversed (chain) order. -/
theorem foldColMajor (h : Nat) (hh : 2 ≤ h) :
    ∀ w, 2 ≤ w → List.foldl hullPush [] (colMajor w h)
      = [⟨((w - 1 : Nat) : Int), ((h - 1 : Nat) : Int)⟩,
          ⟨((w - 1 : Nat) : Int), 0⟩, ⟨0, 0⟩] := by
  intro w hw
  induction w with
  | zero => omega
  | succ w ihw =>
    rcases Nat.lt_or_ge w 2 with hlt | hge
    · have h1 : w = 1 := by omega
      subst h1
      rw [colMajor_succ, List.foldl_append,
        show colMajor 1 h = colMajor 0 h ++ gridCol 0 h from colMajor_succ 0 h,
        colMajor_zero, List.nil_append, foldCol0 h hh]
      exact foldColX 1 (le_refl 1)
        [⟨0, ((h - 1 : Nat) : Int)⟩, ⟨0, 0⟩]
        (by rw [gridCol_one]
            show hullPush _ _ = _
            exact entryFromCol0 h hh 1 (le_refl 1)) h hh
    · rw [colMajor_succ, List.foldl_append, ihw hge]
      have hres := foldColX w (by omega)
        [⟨((w - 1 : Nat) : Int), ((h - 1 : Nat) : Int)⟩, ⟨((w - 1 : Nat) : Int), 0⟩, ⟨0, 0⟩]
        (by rw [gridCol_one]
            show hullPush _ _ = _
            exact entryFromColX h hh (w - 1) w (by omega)) h hh
      rw [hres]
      have e1 : (w + 1 - 1 : Nat) = w := by omega
      rw [e1]

/-- Point reflection through the centre of the `(w-1) × (h-1)` grid
rectangle; it reverses the worker's sort order and preserves turn
directions, which transports the lower-hull computation to the upper
hull. -/
def gridFlip (w h : Nat) (p : Pt) : Pt :=
  ⟨((w - 1 : Nat) : Int) - p.x, ((h - 1 : Nat) : Int) - p.y⟩

theorem crossProduct_gridFlip (w h : Nat) (p1 p2 p3 : Pt) :
    crossProduct (gridFlip w h p1) (gridFlip w h p2) (gridFlip w h p3)
      = crossProduct p1 p2 p3 := by
  simp only [crossProduct, gridFlip]
  ring

theorem hullPush_map_flip (w h : Nat) : ∀ (ch : List Pt) (p : Pt),
    hullPush (ch.map (gridFlip w h)) (gridFlip w h p)
      = (hullPush ch p).map (gridFlip w h)
  | [], _ => rfl
  | [_], _ => rfl
  | p2 :: p1 :: rest, p => by
      simp only [List.map_cons, hullPush, crossProduct_gridFlip]
      by_cases hc : crossProduct p1 p2 p ≤ 0
      · rw [if_pos hc, if_pos hc]
        exact hullPush_map_flip w h (p1 :: rest) p
      · rw [if_neg hc, if_neg hc]
        simp

theorem foldl_hullPush_map_flip (w h : Nat) : ∀ (l : List Pt) (st : List Pt),
    List.foldl hullPush (st.map (gridFlip w h)) (l.map (gridFlip w h))
      = (List.foldl hullPush st l).map (gridFlip w h)
  | [], st => rfl
  | p :: rest, st => by
      simp only [List.map_cons, List.foldl_cons]
      rw [hullPush_map_flip w h st p]
      exact foldl_hullPush_map_flip w h rest (hullPush st p)

theorem buildHull_map_flip (w h : Nat) (l : List Pt) :
    buildHull (l.map (gridFlip w h)) = (buildHull l).map (gridFlip w h) := by
  unfold buildHull
  rw [show (List.map (gridFlip w h) l).foldl hullPush []
      = List.foldl hullPush (List.map (gridFlip w h) []) (List.map (gridFlip w h) l)
      from rfl,
    foldl_hullPush_map_flip w h l [], List.map_reverse]

theorem gridFlip_antitone (w h : Nat) {p q : Pt} (hpq : ptLE p q) :
    ptLE (gridFlip w h q) (gridFlip w h p) := by
  rcases hpq with h1 | ⟨h1, h2⟩
  · exact Or.inl (by simp only [gridFlip]; omega)
  · exact Or.inr ⟨by simp only [gridFlip]; omega, by simp only [gridFlip]; omega⟩

instance : IsAntisymm Pt (fun a b => ptLE b a) :=
  ⟨fun a b h1 h2 => antisymm h2 h1⟩

theorem gridFlip_mem_colMajor {w h : Nat} (hw : 1 ≤ w) (hh : 1 ≤ h) {p : Pt}
    (hp : p ∈ colMajor w h) : gridFlip w h p ∈ colMajor w h := by
  obtain ⟨x, y, hx, hy, rfl⟩ := mem_colMajor.mp hp
  refine mem_colMajor.mpr ⟨w - 1 - x, h - 1 - y, by omega, by omega, ?_⟩
  simp only [gridFlip]
  congr 1
  · have : ((w - 1 - x : Nat) : Int) = ((w - 1 : Nat) : Int) - (x : Int) := by omega
    omega
  · omega

theorem gridFlip_injective (w h : Nat) : Function.Injective (gridFlip w h) := by
  rintro ⟨px, py⟩ ⟨qx, qy⟩ hpq
  simp only [gridFlip, Pt.mk.injEq] at hpq
  simp only [Pt.mk.injEq]
  exact ⟨by omega, by omega⟩

theorem colMajor_reverse_eq_map_flip (w h : Nat) (hw : 1 ≤ w) (hh : 1 ≤ h) :
    (colMajor w h).reverse = (colMajor w h).map (gridFlip w h) := by
  refine List.eq_of_perm_of_sorted (r := fun a b => ptLE b a) ?_ ?_ ?_
  · refine ((colMajor w h).reverse_perm).trans ?_
    refine List.perm_of_nodup_nodup_toFinset_eq (colMajor_nodup w h)
      ((colMajor_nodup w h).map (gridFlip_injective w h)) ?_
    ext p
    simp only [List.mem_toFinset, List.mem_map]
    constructor
    · intro hp
      obtain ⟨x, y, hx, hy, rfl⟩ := mem_colMajor.mp hp
      refine ⟨⟨((w - 1 - x : Nat) : Int), ((h - 1 - y : Nat) : Int)⟩, ?_, ?_⟩
      · exact mem_colMajor.mpr ⟨w - 1 - x, h - 1 - y, by omega, by omega, rfl⟩
      · simp only [gridFlip]
        congr 1 <;> omega
    · rintro ⟨q, hq, rfl⟩
      exact gridFlip_mem_colMajor hw hh hq
  · exact List.pairwise_reverse.mpr (colMajor_sorted w h)
  · exact List.Pairwise.map _ (fun a b hab => gridFlip_antitone w h hab)
      (colMajor_sorted w h)

theorem buildHull_colMajor (w h : Nat) (hw : 2 ≤ w) (hh : 2 ≤ h) :
    buildHull (colMajor w h) = [⟨0, 0⟩, ⟨((w - 1 : Nat) : Int), 0⟩,
      ⟨((w - 1 : Nat) : Int), ((h - 1 : Nat) : Int)⟩] := by
  unfold buildHull
  rw [foldColMajor h hh w hw]
  rfl

theorem buildHull_colMajor_reverse (w h : Nat) (hw : 2 ≤ w) (hh : 2 ≤ h) :
    buildHull (colMajor w h).reverse
      = [⟨((w - 1 : Nat) : Int), ((h - 1 : Nat) : Int)⟩,
          ⟨0, ((h - 1 : Nat) : Int)⟩, ⟨0, 0⟩] := by
  rw [colMajor_reverse_eq_map_flip w h (by omega) (by omega),
    buildHull_map_flip, buildHull_colMajor w h hw hh]
  simp [gridFlip]

/-- The convex hull of all grid points of a `w × h` bitmap with
`w, h ≥ 2`: the four corners, counter-clockwise from the origin. -/
theorem getConvexHull_rowMajor (w h : Nat) (hw : 2 ≤ w) (hh : 2 ≤ h) :
    getConvexHull (rowMajor w h)
      = [⟨0, 0⟩, ⟨((w - 1 : Nat) : Int), 0⟩,
          ⟨((w - 1 : Nat) : Int), ((h - 1 : Nat) : Int)⟩,
          ⟨0, ((h - 1 : Nat) : Int)⟩] := by
  have hlen : (rowMajor w h).length = w * h := by
    unfold rowMajor
    rw [List.length_map, List.length_range]
  have h4 : 4 ≤ w * h := by
    calc 4 = 2 * 2 := rfl
      _ ≤ w * h := Nat.mul_le_mul hw hh
  simp only [getConvexHull]
  rw [if_neg (by omega), show sortPoints (rowMajor w h) = colMajor w h
      from sortPoints_rowMajor w h,
    buildHull_colMajor w h hw hh, buildHull_colMajor_reverse w h hw hh]
  rfl

theorem shoelace_rect (W H : Int) :
    shoelace [⟨0, 0⟩, ⟨W, 0⟩, ⟨W, H⟩, ⟨0, H⟩] = -(2 * W * H) := by
  have h0 : shoelace [⟨0, 0⟩, ⟨W, 0⟩, ⟨W, H⟩, ⟨0, H⟩]
      = 0 + (0 + 0) * (H - 0) + (0 + W) * (0 - 0)
        + (W + W) * (0 - H) + (W + 0) * (H - H) := rfl
  rw [h0]
  ring

theorem polygonArea_rect (a b : Nat) :
    polygonArea [⟨0, 0⟩, ⟨(a : Int), 0⟩, ⟨(a : Int), (b : Int)⟩, ⟨0, (b : Int)⟩]
      = ((a : ℚ) * (b : ℚ)) := by
  unfold polygonArea
  rw [shoelace_rect]
  have habs : (-(2 * (a : Int) * (b : Int))).natAbs = 2 * a * b := by
    rw [Int.natAbs_neg]
    simp [Int.natAbs_mul]
  rw [habs]
  push_cast
  ring

/-! ## Detection on a uniform palette-coloured bitmap (claim C4) -/

/-- A bitmap filled entirely with the colour `c`. -/
def fillImage (w h : Nat) (c : RGB) : Image :=
  ⟨w, h, fun _ => c⟩

theorem colorDistanceSq_self (c : RGB) : colorDistanceSq c c = 0 := by
  simp [colorDistanceSq]

theorem leakMask_true_of_palette {img : Image} {P : List RGB} {tol : Int}
    {flat : Option Int} {thr : Nat} {i : Nat}
    (h : paletteMatch img P tol i = true) :
    leakMask img P tol flat thr i = true := by
  unfold leakMask
  split <;> simp [h]

theorem paletteMatch_fill {w h : Nat} {c : RGB} {P : List RGB} {tol : Int}
    (hdist : ∃ p ∈ P, colorDistanceSq c p = 0) (htol : 0 < tol) (i : Nat) :
    paletteMatch (fillImage w h c) P tol i = true := by
  obtain ⟨p, hp, hd⟩ := hdist
  unfold paletteMatch
  rw [List.any_eq_true]
  refine ⟨p, hp, ?_⟩
  show decide (colorDistanceSq ((fillImage w h c).pix i) p < tol) = true
  rw [decide_eq_true_eq]
  show colorDistanceSq c p < tol
  omega

theorem totalLeaked_fill {w h : Nat} {c : RGB} {P : List RGB} {tol : Int}
    {flat : Option Int} {thr : Nat}
    (hdist : ∃ p ∈ P, colorDistanceSq c p = 0) (htol : 0 < tol) :
    totalLeakedPixels (fillImage w h c) P tol flat thr = w * h := by
  unfold totalLeakedPixels
  have hall : ∀ i ∈ List.range (pixelCount (fillImage w h c)),
      leakMask (fillImage w h c) P tol flat thr i = true :=
    fun i _ => leakMask_true_of_palette (paletteMatch_fill hdist htol i)
  rw [List.filter_eq_self.mpr hall, List.length_range]
  rfl

/-- The whole pixel grid is one cluster of the uniform bitmap. -/
theorem fill_isLeakCluster {w h : Nat} {c : RGB} {P : List RGB} {tol : Int}
    {flat : Option Int} {thr : Nat} (hw : 2 ≤ w) (hh : 2 ≤ h)
    (hdist : ∃ p ∈ P, colorDistanceSq c p = 0) (htol : 0 < tol) :
    IsLeakCluster (fillImage w h c) P tol flat thr (Finset.range (w * h)) := by
  have hN : pixelCount (fillImage w h c) = w * h := rfl
  have hgood : ∀ j, j < w * h →
      leakAt (fillImage w h c) P tol flat thr j = true := by
    intro j hj
    unfold leakAt
    rw [Bool.and_eq_true, decide_eq_true_eq]
    exact ⟨hN ▸ hj, leakMask_true_of_palette (paletteMatch_fill hdist htol j)⟩
  have hconn0 : ∀ i, i < w * h → Connected (w * h)
      (leakAt (fillImage w h c) P tol flat thr)
      (windowNeighbors w h 3) 0 i := by
    refine grid_connected hgood ?_ ?_
    · intro p hp hx
      exact mem_windowNeighbors_succ (by omega) hp hx
    · intro p hp
      exact mem_windowNeighbors_below (by omega) hp
  have hsym : ∀ i j, i < w * h → j < w * h →
      (j ∈ windowNeighbors w h 3 i → i ∈ windowNeighbors w h 3 j) :=
    fun i j hi hj => windowNeighbors_symm i j hi hj
  have hNpos : 0 < w * h := by
    calc 0 < 2 * 2 := by omega
      _ ≤ w * h := Nat.mul_le_mul hw hh
  refine ⟨⟨0, Finset.mem_range.mpr hNpos⟩, ?_, ?_, ?_⟩
  · intro i hi
    rw [Finset.mem_range] at hi
    exact ⟨hi, hgood i hi⟩
  · intro i _ b _ hbN _
    exact Finset.mem_range.mpr hbN
  · intro i hi j hj
    rw [Finset.mem_range] at hi hj
    exact Relation.ReflTransGen.trans
      (connected_symm hsym hNpos (hgood 0 hNpos) (hconn0 i hi)) (hconn0 j hj)

/-- The full grid is a blob: its hull is the bitmap rectangle, and its
solidity `w*h / ((w-1)*(h-1))` exceeds 1, hence the 0.75 threshold. -/
theorem fill_blobCluster {w h : Nat} (hw : 2 ≤ w) (hh : 2 ≤ h) {thr : Nat}
    (hthr : thr < w * h) : BlobCluster thr w (Finset.range (w * h)) := by
  have hhull : clusterHull w (Finset.range (w * h))
      = [⟨0, 0⟩, ⟨((w - 1 : Nat) : Int), 0⟩,
          ⟨((w - 1 : Nat) : Int), ((h - 1 : Nat) : Int)⟩,
          ⟨0, ((h - 1 : Nat) : Int)⟩] := by
    unfold clusterHull
    rw [Finset.sort_range]
    exact getConvexHull_rowMajor w h hw hh
  have harea : polygonArea (clusterHull w (Finset.range (w * h)))
      = (((w - 1 : Nat) : ℚ) * ((h - 1 : Nat) : ℚ)) := by
    rw [hhull]
    exact polygonArea_rect (w - 1) (h - 1)
  have hDpos : (0 : ℚ) < ((w - 1 : Nat) : ℚ) * ((h - 1 : Nat) : ℚ) := by
    have h1 : (0 : ℚ) < ((w - 1 : Nat) : ℚ) := by exact_mod_cast (by omega : 0 < w - 1)
    have h2 : (0 : ℚ) < ((h - 1 : Nat) : ℚ) := by exact_mod_cast (by omega : 0 < h - 1)
    exact mul_pos h1 h2
  have hlt : (w - 1) * (h - 1) < w * h := by
    obtain ⟨a, rfl⟩ : ∃ a, w = a + 1 := ⟨w - 1, by omega⟩
    obtain ⟨b, rfl⟩ : ∃ b, h = b + 1 := ⟨h - 1, by omega⟩
    simp only [Nat.add_sub_cancel]
    nlinarith
  refine ⟨by rw [Finset.card_range]; exact hthr, by rw [hhull]; simp, ?_, ?_⟩
  · rw [harea]; exact hDpos
  · rw [harea, Finset.card_range]
    have hcast : (((w - 1 : Nat) : ℚ) * ((h - 1 : Nat) : ℚ)) < ((w * h : Nat) : ℚ) := by
      push_cast
      exact_mod_cast (by push_cast; exact_mod_cast hlt :
        (((w - 1) * (h - 1) : Nat) : ℚ) < ((w * h : Nat) : ℚ))
    have hone : (1 : ℚ) < ((w * h : Nat) : ℚ) / (((w - 1 : Nat) : ℚ) * ((h - 1 : Nat) : ℚ)) :=
      (one_lt_div hDpos).mpr hcast
    calc (0.75 : ℚ) < 1 := by norm_num
      _ < _ := hone

/-! ## Diff specifications -/

/-- No pixel of two same-sized bitmaps differs by more than the squared
threshold. -/
def NoVisibleChange (a b : Image) (t : Int) : Prop :=
  ∀ i, i < pixelCount a → colorDistanceSq (a.pix i) (b.pix i) ≤ t

instance (a b : Image) (t : Int) : Decidable (NoVisibleChange a b t) := by
  unfold NoVisibleChange
  exact Nat.decidableBallLT _ _

theorem performDiffing_same_dims (a b : Image) (t : Int)
    (hw : a.width = b.width) (hh : a.height = b.height) :
    performDiffing a b t = none ↔ NoVisibleChange a b t := by
  unfold performDiffing performDiffingTry
  rw [if_neg (by push_neg; exact ⟨hw, hh⟩)]
  by_cases hany : (List.range (pixelCount a)).any
      (fun i => decide (colorDistanceSq (a.pix i) (b.pix i) > t)) = true
  · rw [if_pos hany]
    simp only [reduceCtorEq, false_iff]
    intro hno
    rw [List.any_eq_true] at hany
    obtain ⟨i, hi, hgt⟩ := hany
    rw [List.mem_range] at hi
    rw [decide_eq_true_eq] at hgt
    exact absurd (hno i hi) (by omega)
  · rw [if_neg hany]
    simp only [true_iff]
    intro i hi
    by_contra hgt
    exact hany (List.any_eq_true.mpr ⟨i, List.mem_range.mpr hi,
      decide_eq_true (by omega)⟩)

theorem generateDiffMap_self (a : Image) : generateDiffMap a a = none := by
  unfold generateDiffMap
  rw [performDiffing_same_dims a a 100 rfl rfl]
  intro i _
  rw [colorDistanceSq_self]
  omega

/-! ## Controller record lemmas -/

theorem reasonConsistent_mkRecord (rev : Nat) (img : String) (diff : Option String)
    (lm : String) (passed isFinal : Bool) :
    ReasonConsistent (mkRecord rev img diff lm passed isFinal) := by
  cases isFinal <;> cases passed <;> simp [ReasonConsistent, mkRecord]

theorem refinementLoop_reasons (maxR : Nat) (refImgs : Nat → String)
    (diffs : Nat → Option String) (leakMaps : Nat → String)
    (analysisPassed : Nat → Bool) :
    ∀ (count : Nat) (passed : Bool) (hist : List AnalysisRecord),
    HistoryReasonsOk hist →
    HistoryReasonsOk (refinementLoop maxR refImgs diffs leakMaps analysisPassed
      count passed hist) := by
  intro count passed hist
  induction count, passed, hist using refinementLoop.induct maxR refImgs diffs
      leakMaps analysisPassed with
  | case1 count passed hist hcond ih =>
    intro hok
    rw [refinementLoop.eq_1, dif_pos hcond]
    apply ih
    intro r hr
    rcases List.mem_append.mp hr with hr | hr
    · exact hok r hr
    · rw [List.mem_singleton.mp hr]
      exact reasonConsistent_mkRecord _ _ _ _ _ _
  | case2 count passed hist hcond =>
    intro hok
    rw [refinementLoop.eq_1, dif_neg hcond]
    exact hok

theorem generateMapHistory_reasons (maxR : Nat) (init : String)
    (refImgs : Nat → String) (diffs : Nat → Option String)
    (leakMaps : Nat → String) (analysisPassed : Nat → Bool) :
    HistoryReasonsOk (generateMapHistory maxR init refImgs diffs leakMaps
      analysisPassed) := by
  unfold generateMapHistory
  apply refinementLoop_reasons
  intro r hr
  rw [List.mem_singleton.mp hr]
  exact reasonConsistent_mkRecord _ _ _ _ _ _

theorem clearLastFinal_reasons {hist : List AnalysisRecord}
    (hok : HistoryReasonsOk hist) : HistoryReasonsOk (clearLastFinal hist) := by
  unfold clearLastFinal
  split
  · exact hok
  · split
    · intro r hr
      rcases List.mem_append.mp hr with hr | hr
      · exact hok r ((List.dropLast_sublist _).subset hr)
      · rw [List.mem_singleton.mp hr]
        exact ⟨by simp, by simp⟩
    · exact hok

theorem manualRefine_reasons (gen : Option String) (isLoading apiKeyOk : Bool)
    (hist : List AnalysisRecord) (refined : String) (aiChange : Option String)
    (needsRef : Bool) (lm : String) (hok : HistoryReasonsOk hist) :
    HistoryReasonsOk (manualRefine gen isLoading apiKeyOk hist refined aiChange
      needsRef lm) := by
  unfold manualRefine
  by_cases hguard : gen = none ∨ isLoading = true
  · rw [if_pos hguard]; exact hok
  · rw [if_neg hguard]
    by_cases hkey : apiKeyOk = false
    · rw [if_pos hkey]; exact hok
    · rw [if_neg hkey]
      intro r hr
      rcases List.mem_append.mp hr with hr | hr
      · exact clearLastFinal_reasons hok r hr
      · rw [List.mem_singleton.mp hr]
        cases needsRef <;> exact ⟨by simp, by simp⟩

/-! ## Fast path and the two branches of `performLeakDetection` -/

theorem performLeak_fastPath (img : Image) (P : List RGB) (tol : Int)
    (flat : Option Int) (thr : Nat)
    (h : totalLeakedPixels img P tol flat thr < thr) :
    performLeakDetection (.ok img) P thr tol flat
      = ⟨false, some (leakAt img P tol flat thr)⟩ := by
  simp only [performLeakDetection]
  rw [if_pos h]

theorem performLeak_slowPath (img : Image) (P : List RGB) (tol : Int)
    (flat : Option Int) (thr : Nat)
    (h : ¬totalLeakedPixels img P tol flat thr < thr) :
    performLeakDetection (.ok img) P thr tol flat
      = ⟨clusterScan img P tol flat thr, some (leakAt img P tol flat thr)⟩ := by
  simp only [performLeakDetection]
  rw [if_neg h]

/-- Below the fast-path threshold no cluster can pass the blob test, so the
full scan also answers `false`. -/
theorem clusterScan_false_of_few (img : Image) (P : List RGB) (tol : Int)
    (flat : Option Int) (thr : Nat)
    (h : totalLeakedPixels img P tol flat thr < thr) :
    clusterScan img P tol flat thr = false := by
  cases hres : clusterScan img P tol flat thr with
  | false => rfl
  | true =>
    exfalso
    obtain ⟨C, hcl, hblob⟩ := (clusterScan_iff img P tol flat thr).mp hres
    have hcard : C.card ≤ totalLeakedPixels img P tol flat thr := by
      unfold totalLeakedPixels
      apply card_le_filter_length
      intro x hx
      obtain ⟨hxN, hxg⟩ := hcl.2.1 x hx
      simp only [leakAt, Bool.and_eq_true, decide_eq_true_eq] at hxg
      exact ⟨hxN, hxg.2⟩
    have hgt := hblob.1
    omega

/-! ## Degenerate hulls of one-pixel-wide bitmaps -/

theorem hullPush_mem : ∀ (st : List Pt) (a p : Pt),
    p ∈ hullPush st a → p = a ∨ p ∈ st := by
  intro st
  induction st with
  | nil =>
    intro a p hp
    simp only [hullPush] at hp
    exact List.mem_cons.mp hp
  | cons p2 st' ih =>
    intro a p hp
    cases st' with
    | nil =>
      simp only [hullPush] at hp
      exact List.mem_cons.mp hp
    | cons p1 rest =>
      simp only [hullPush] at hp
      split at hp
      · rcases ih a p hp with h | h
        · exact Or.inl h
        · exact Or.inr (List.mem_cons_of_mem _ h)
      · exact List.mem_cons.mp hp

theorem foldl_hullPush_mem : ∀ (l st : List Pt) (p : Pt),
    p ∈ l.foldl hullPush st → p ∈ st ∨ p ∈ l := by
  intro l
  induction l with
  | nil => intro st p hp; exact Or.inl hp
  | cons a l ih =>
    intro st p hp
    rw [List.foldl_cons] at hp
    rcases ih (hullPush st a) p hp with h | h
    · rcases hullPush_mem st a p h with h' | h'
      · exact Or.inr (by rw [h']; exact List.mem_cons_self _ _)
      · exact Or.inl h'
    · exact Or.inr (List.mem_cons_of_mem _ h)

/-- Every vertex of the computed hull is one of the input points. -/
theorem getConvexHull_subset {l : List Pt} {p : Pt}
    (hp : p ∈ getConvexHull l) : p ∈ l := by
  simp only [getConvexHull] at hp
  split at hp
  · exact hp
  · rcases List.mem_append.mp hp with h | h
    · have h1 := (List.dropLast_sublist _).subset h
      unfold buildHull at h1
      rw [List.mem_reverse] at h1
      rcases foldl_hullPush_mem _ _ _ h1 with h2 | h2
      · exact absurd h2 (List.not_mem_nil _)
      · exact (List.Perm.mem_iff (List.perm_insertionSort _ _)).mp h2
    · have h1 := (List.dropLast_sublist _).subset h
      unfold buildHull at h1
      rw [List.mem_reverse] at h1
      rcases foldl_hullPush_mem _ _ _ h1 with h2 | h2
      · exact absurd h2 (List.not_mem_nil _)
      · rw [List.mem_reverse] at h2
        exact (List.Perm.mem_iff (List.perm_insertionSort _ _)).mp h2

theorem foldl_shoelace_zero : ∀ (pairs : List (Pt × Pt)) (s : Int),
    (∀ ab ∈ pairs, ab.1.x + ab.2.x = 0) →
    pairs.foldl (fun s ab => s + (ab.1.x + ab.2.x) * (ab.1.y - ab.2.y)) s = s := by
  intro pairs
  induction pairs with
  | nil => intro s _; rfl
  | cons ab rest ih =>
    intro s hall
    rw [List.foldl_cons]
    have h0 : ab.1.x + ab.2.x = 0 := hall ab (List.mem_cons_self _ _)
    rw [h0, zero_mul, add_zero]
    exact ih s (fun x hx => hall x (List.mem_cons_of_mem _ hx))

/-- The shoelace sum of points lying on the line `x = 0` vanishes. -/
theorem shoelace_zero_of_x_zero {l : List Pt} (hx : ∀ p ∈ l, p.x = 0) :
    shoelace l = 0 := by
  cases l with
  | nil => rfl
  | cons p rest =>
    show ((((p :: rest).getLastD p :: (p :: rest).dropLast).zip (p :: rest)).foldl
      (fun s ab => s + (ab.1.x + ab.2.x) * (ab.1.y - ab.2.y)) 0) = 0
    apply foldl_shoelace_zero
    intro ab hab
    obtain ⟨hfst, hsnd⟩ := List.of_mem_zip hab
    have hx2 : ab.2.x = 0 := hx ab.2 hsnd
    have hml : (p :: rest).getLastD p ∈ p :: rest := by
      rcases List.mem_cons.mp (List.getLastD_mem_cons (p :: rest) p) with h | h
      · rw [h]; exact List.mem_cons_self _ _
      · exact h
    have hx1 : ab.1.x = 0 := by
      rcases List.mem_cons.mp hfst with h | h
      · rw [h]; exact hx _ hml
      · exact hx _ ((List.dropLast_sublist _).subset h)
    rw [hx1, hx2, add_zero]

/-- The hull of any cluster of a one-pixel-wide bitmap has zero area: all
its points are collinear on `x = 0`. -/
theorem polygonArea_hull_width1 (C : Finset Nat) :
    polygonArea (clusterHull 1 C) = 0 := by
  unfold clusterHull
  have hz : shoelace (getConvexHull ((C.sort (· ≤ ·)).map (toPt 1))) = 0 := by
    apply shoelace_zero_of_x_zero
    intro p hp
    have hpin := getConvexHull_subset hp
    rw [List.mem_map] at hpin
    obtain ⟨i, _, rfl⟩ := hpin
    show ((i % 1 : Nat) : Int) = 0
    rw [Nat.mod_one]
    rfl
  unfold polygonArea
  rw [hz]
  norm_num

theorem not_blobCluster_width1 (thr : Nat) (C : Finset Nat) :
    ¬BlobCluster thr 1 C := by
  rintro ⟨_, _, hpos, _⟩
  rw [polygonArea_hull_width1] at hpos
  exact lt_irrefl 0 hpos

/-! ## The claims -/

/-- C1: for every leak mask analysed past the fast path (total leak-pixel
count at least the cluster size threshold), the detection result's
`needsRefinement` is `true` if and only if some maximal connected cluster of
leak pixels — connectivity via the radius-3 square search window — has
strictly more than `clusterSizeThreshold` pixels, a convex hull with at
least 3 vertices and strictly positive area, and solidity (pixel count over
hull area) strictly above 0.75; large clusters with a degenerate hull or
with solidity at or below the threshold never set `needsRefinement`. -/
theorem claim_C1 (img : Image) (P : List RGB) (tol : Int) (flat : Option Int)
    (thr : Nat) (h : thr ≤ totalLeakedPixels img P tol flat thr) :
    (performLeakDetection (.ok img) P thr tol flat).needsRefinement = true ↔
      NeedsRefinementSpec img P tol flat thr := by
  rw [performLeak_slowPath img P tol flat thr (by omega)]
  exact clusterScan_iff img P tol flat thr

theorem claim_C1_witness :
    1 ≤ totalLeakedPixels (fillImage 2 2 ⟨0, 255, 0⟩) [⟨0, 255, 0⟩] 1 none 1 ∧
      ((performLeakDetection (.ok (fillImage 2 2 ⟨0, 255, 0⟩))
          [⟨0, 255, 0⟩] 1 1 none).needsRefinement = true ↔
        NeedsRefinementSpec (fillImage 2 2 ⟨0, 255, 0⟩) [⟨0, 255, 0⟩] 1 none 1) :=
  ⟨by decide, claim_C1 (fillImage 2 2 ⟨0, 255, 0⟩) [⟨0, 255, 0⟩] 1 none 1 (by decide)⟩

/-- C2: when the total number of leak-classified pixels is strictly below
the cluster size threshold, detection returns `needsRefinement = false` by
the early return without running the cluster analysis, and the skipped
cluster analysis would also have answered `false` — the fast path never
changes the result. -/
theorem claim_C2 (img : Image) (P : List RGB) (tol : Int) (flat : Option Int)
    (thr : Nat) (h : totalLeakedPixels img P tol flat thr < thr) :
    (performLeakDetection (.ok img) P thr tol flat).needsRefinement = false ∧
      clusterScan img P tol flat thr = false ∧
      (performLeakDetection (.ok img) P thr tol flat).needsRefinement
        = clusterScan img P tol flat thr := by
  have hscan := clusterScan_false_of_few img P tol flat thr h
  rw [performLeak_fastPath img P tol flat thr h]
  exact ⟨rfl, hscan, hscan.symm⟩

theorem claim_C2_witness :
    totalLeakedPixels (fillImage 2 2 ⟨9, 9, 9⟩) [⟨0, 255, 0⟩] 1 none 1 < 1 ∧
      ((performLeakDetection (.ok (fillImage 2 2 ⟨9, 9, 9⟩))
          [⟨0, 255, 0⟩] 1 1 none).needsRefinement = false ∧
        clusterScan (fillImage 2 2 ⟨9, 9, 9⟩) [⟨0, 255, 0⟩] 1 none 1 = false ∧
        (performLeakDetection (.ok (fillImage 2 2 ⟨9, 9, 9⟩))
            [⟨0, 255, 0⟩] 1 1 none).needsRefinement
          = clusterScan (fillImage 2 2 ⟨9, 9, 9⟩) [⟨0, 255, 0⟩] 1 none 1) :=
  ⟨by decide, claim_C2 (fillImage 2 2 ⟨9, 9, 9⟩) [⟨0, 255, 0⟩] 1 none 1 (by decide)⟩

/-- C3 as stated is refuted: on mismatched dimensions the diff operation
does *not* surface an error to the caller — the worker's `catch` swallows
the `DimensionMismatch` throw and the caller receives the normal `null`
result, indistinguishable from "no visible change". -/
theorem claim_C3_counterexample :
    (fillImage 1 1 ⟨0, 0, 0⟩).width ≠ (fillImage 2 1 ⟨0, 0, 0⟩).width ∧
      performDiffing (fillImage 1 1 ⟨0, 0, 0⟩) (fillImage 2 1 ⟨0, 0, 0⟩) 100 = none ∧
      generateDiffMap (fillImage 1 1 ⟨0, 0, 0⟩) (fillImage 2 1 ⟨0, 0, 0⟩) = none :=
  ⟨by decide, rfl, rfl⟩

/-- C3 (amended): on mismatched dimensions the diff routine itself throws
the dimension-mismatch error, but the surrounding `catch` converts the
failure into the normal `null` result, so the caller observes `none`
rather than a surfaced error. -/
theorem claim_C3 (a b : Image) (t : Int)
    (hdim : a.width ≠ b.width ∨ a.height ≠ b.height) :
    performDiffingTry a b t
        = .error "WORKER: Image dimensions do not match for diffing." ∧
      performDiffing a b t = none := by
  have htry : performDiffingTry a b t
      = .error "WORKER: Image dimensions do not match for diffing." := by
    unfold performDiffingTry
    rw [if_pos hdim]
  refine ⟨htry, ?_⟩
  unfold performDiffing
  rw [htry]

theorem claim_C3_witness :
    ((fillImage 1 2 ⟨0, 0, 0⟩).width ≠ (fillImage 2 2 ⟨0, 0, 0⟩).width ∨
      (fillImage 1 2 ⟨0, 0, 0⟩).height ≠ (fillImage 2 2 ⟨0, 0, 0⟩).height) ∧
      (performDiffingTry (fillImage 1 2 ⟨0, 0, 0⟩) (fillImage 2 2 ⟨0, 0, 0⟩) 100
          = .error "WORKER: Image dimensions do not match for diffing." ∧
        performDiffing (fillImage 1 2 ⟨0, 0, 0⟩) (fillImage 2 2 ⟨0, 0, 0⟩) 100 = none) :=
  ⟨Or.inl (by decide),
    claim_C3 (fillImage 1 2 ⟨0, 0, 0⟩) (fillImage 2 2 ⟨0, 0, 0⟩) 100 (Or.inl (by decide))⟩

/-- C4 as stated is refuted: with the pixel style's real parameters
(palette `blueprintColorsRGB`, tolerance 400 > 0, cluster size threshold
1000), a 1 × 1001 bitmap filled with the palette colour `#00FF00` has 1001
leak pixels — more than the threshold — yet `needsRefinement` is `false`,
because the single cluster is collinear and its degenerate hull fails the
blob test. -/
theorem claim_C4_counterexample :
    (∃ p ∈ blueprintColorsRGB, colorDistanceSq ⟨0, 255, 0⟩ p = 0) ∧
      0 < (400 : Int) ∧
      1000 < pixelCount (fillImage 1 1001 ⟨0, 255, 0⟩) ∧
      (performLeakDetection (.ok (fillImage 1 1001 ⟨0, 255, 0⟩))
        blueprintColorsRGB 1000 400 none).needsRefinement = false := by
  have hdist : ∃ p ∈ blueprintColorsRGB, colorDistanceSq ⟨0, 255, 0⟩ p = 0 :=
    ⟨⟨0, 255, 0⟩, by unfold blueprintColorsRGB; exact List.mem_cons_self _ _,
      colorDistanceSq_self _⟩
  have htot : totalLeakedPixels (fillImage 1 1001 ⟨0, 255, 0⟩)
      blueprintColorsRGB 400 none 1000 = 1 * 1001 :=
    totalLeaked_fill hdist (by decide)
  have hscan : clusterScan (fillImage 1 1001 ⟨0, 255, 0⟩) blueprintColorsRGB
      400 none 1000 = false := by
    cases hres : clusterScan (fillImage 1 1001 ⟨0, 255, 0⟩) blueprintColorsRGB
        400 none 1000 with
    | false => rfl
    | true =>
      obtain ⟨C, _, hblob⟩ := (clusterScan_iff _ _ _ _ _).mp hres
      exact absurd hblob (not_blobCluster_width1 _ _)
  refine ⟨hdist, by decide, by decide, ?_⟩
  rw [performLeak_slowPath _ _ _ _ _ (by rw [htot]; omega), hscan]

/-- C4 (amended): for every bitmap at least 2 pixels wide *and* 2 pixels
tall, filled entirely with a colour at squared distance 0 from some palette
entry, under a positive colour-match tolerance and with more pixels than
the cluster size threshold, detection yields `needsRefinement = true`.  (On
one-pixel-wide or one-pixel-tall bitmaps the unique cluster is collinear,
its hull is degenerate, and the result is `false`.) -/
theorem claim_C4 (w h : Nat) (c : RGB) (P : List RGB) (tol : Int)
    (flat : Option Int) (thr : Nat) (hw : 2 ≤ w) (hh : 2 ≤ h)
    (hthr : thr < w * h) (hdist : ∃ p ∈ P, colorDistanceSq c p = 0)
    (htol : 0 < tol) :
    (performLeakDetection (.ok (fillImage w h c)) P thr tol flat).needsRefinement
      = true := by
  have htot : totalLeakedPixels (fillImage w h c) P tol flat thr = w * h :=
    totalLeaked_fill hdist htol
  rw [performLeak_slowPath _ _ _ _ _ (by rw [htot]; omega)]
  show clusterScan (fillImage w h c) P tol flat thr = true
  refine (clusterScan_iff _ _ _ _ _).mpr ⟨Finset.range (w * h), ?_, ?_⟩
  · exact fill_isLeakCluster hw hh hdist htol
  · exact fill_blobCluster hw hh hthr

theorem claim_C4_witness :
    (2 ≤ 2 ∧ 1 < 2 * 2 ∧
      (∃ p ∈ [(⟨0, 255, 0⟩ : RGB)], colorDistanceSq ⟨0, 255, 0⟩ p = 0) ∧
      0 < (1 : Int)) ∧
      (performLeakDetection (.ok (fillImage 2 2 ⟨0, 255, 0⟩))
        [⟨0, 255, 0⟩] 1 1 none).needsRefinement = true :=
  ⟨⟨by decide, by decide, ⟨⟨0, 255, 0⟩, List.mem_singleton_self _, by decide⟩, by decide⟩,
    claim_C4 2 2 ⟨0, 255, 0⟩ [⟨0, 255, 0⟩] 1 none 1 (by decide) (by decide) (by decide)
      ⟨⟨0, 255, 0⟩, List.mem_singleton_self _, by decide⟩ (by decide)⟩

/-- C5: when the flatness threshold is provided and positive, every
4-connected flood-filled flat-colour region with strictly more pixels than
the cluster size threshold has all of its pixels marked as leaks regardless
of the palette; flat-marked pixels are skipped by the palette-match pass
(their mask value is independent of palette and tolerance); and when the
flatness threshold is absent the pass marks no pixel — the combined mask is
the palette-match mask alone. -/
theorem claim_C5 (img : Image) (flatT : Int) (thr : Nat) (hpos : 0 < flatT) :
    FlatnessPassSound img flatT thr ∧ FlatnessPassSkippedAll img thr := by
  refine ⟨⟨?_, ?_⟩, ?_⟩
  · intro s R hreg hcard P tol i hiR
    have hm := flatRegion_marked img flatT thr hreg hcard hiR
    have hp1 : pass1Mask img (some flatT) thr i = true := by
      simp [pass1Mask, hpos, hm]
    simp [leakMask, hp1]
  · intro i hp1 P tol P' tol'
    simp [leakMask, hp1]
  · intro P tol i
    simp [leakMask, pass1Mask]

theorem claim_C5_witness :
    0 < (50 : Int) ∧
      (FlatnessPassSound (fillImage 1 1 ⟨0, 0, 0⟩) 50 400 ∧
        FlatnessPassSkippedAll (fillImage 1 1 ⟨0, 0, 0⟩) 400) :=
  ⟨by decide, claim_C5 (fillImage 1 1 ⟨0, 0, 0⟩) 50 400 (by decide)⟩

/-- C6: when the analysis cannot complete — the image fails to decode (or
any exception reaches `performLeakDetection`'s catch), or the worker itself
errors — the leak detection call resolves (never rejects) with
`needsRefinement = false` and a null leak map, for every map style. -/
theorem claim_C6 : ∀ (e : String) (style : MapStyle),
    hasBlueprintLeaks (.error e) style = .ok ⟨false, none⟩ ∧
      hasBlueprintLeaksOnWorkerError = .ok ⟨false, none⟩ := by
  intro e style
  cases style <;> exact ⟨rfl, rfl⟩

/-- C7: from a history of `N` records whose last record is final, a manual
refinement (final image present, no loop in flight, valid API key) leaves
exactly `N + 1` records: the previously last record keeps its data but has
`isFinal` set to `false` and `finalReason` cleared, and the single appended
record has `isManual = true` and `isFinal = true` regardless of whether its
analysis passed (`passed = !needsRefinement`). -/
theorem claim_C7 (h₀ : List AnalysisRecord) (last : AnalysisRecord)
    (g refined : String) (aiChange : Option String) (needsRef : Bool)
    (lm : String) (hfin : last.isFinal = true) :
    manualRefine (some g) false true (h₀ ++ [last]) refined aiChange needsRef lm
        = h₀ ++ [{ last with isFinal := false, finalReason := none },
          { revision := last.revision + 1, mapImage := refined,
            aiChangeMap := aiChange, leakMap := lm, passed := !needsRef,
            isFinal := true,
            finalReason := some (if !needsRef then .passed else .limitReached),
            isManual := true }] ∧
      (manualRefine (some g) false true (h₀ ++ [last]) refined aiChange needsRef
        lm).length = (h₀ ++ [last]).length + 1 := by
  have hlast : (h₀ ++ [last]).getLast? = some last := by simp
  have hclear : clearLastFinal (h₀ ++ [last])
      = h₀ ++ [{ last with isFinal := false, finalReason := none }] := by
    unfold clearLastFinal
    rw [hlast]
    show (if last.isFinal = true then
        (h₀ ++ [last]).dropLast ++ [{ last with isFinal := false, finalReason := none }]
      else h₀ ++ [last])
      = h₀ ++ [{ last with isFinal := false, finalReason := none }]
    rw [if_pos hfin, List.dropLast_concat]
  have hmain : manualRefine (some g) false true (h₀ ++ [last]) refined aiChange
      needsRef lm
      = h₀ ++ [{ last with isFinal := false, finalReason := none },
          { revision := last.revision + 1, mapImage := refined,
            aiChangeMap := aiChange, leakMap := lm, passed := !needsRef,
            isFinal := true,
            finalReason := some (if !needsRef then .passed else .limitReached),
            isManual := true }] := by
    simp only [manualRefine]
    rw [if_neg (by simp), if_neg (by simp)]
    rw [hclear, hlast]
    simp [List.append_assoc]
  refine ⟨hmain, ?_⟩
  rw [hmain]
  simp

theorem claim_C7_witness :
    (⟨1, "m", none, "l", true, true, some FinalReason.passed, false⟩ :
        AnalysisRecord).isFinal = true ∧
      (manualRefine (some "g") false true
          ([] ++ [(⟨1, "m", none, "l", true, true, some FinalReason.passed, false⟩ :
            AnalysisRecord)]) "r" none false "lm"
        = [] ++ [{ (⟨1, "m", none, "l", true, true, some FinalReason.passed, false⟩ :
              AnalysisRecord) with isFinal := false, finalReason := none },
            { revision := (⟨1, "m", none, "l", true, true, some FinalReason.passed,
                false⟩ : AnalysisRecord).revision + 1,
              mapImage := "r", aiChangeMap := none, leakMap := "lm",
              passed := !false, isFinal := true,
              finalReason := some (if !false then .passed else .limitReached),
              isManual := true }] ∧
        (manualRefine (some "g") false true
            ([] ++ [(⟨1, "m", none, "l", true, true, some FinalReason.passed, false⟩ :
              AnalysisRecord)]) "r" none false "lm").length
          = ([] ++ [(⟨1, "m", none, "l", true, true, some FinalReason.passed, false⟩ :
              AnalysisRecord)]).length + 1) :=
  ⟨rfl, claim_C7 [] ⟨1, "m", none, "l", true, true, some FinalReason.passed, false⟩
    "g" "r" none false "lm" rfl⟩

/-- C8: for same-dimension bitmaps the diff operation returns `null` if and
only if no pixel's squared RGB distance between the two bitmaps exceeds the
diff threshold; in particular diffing a bitmap against itself (threshold
100) returns `null` rather than an empty overlay. -/
theorem claim_C8 (a b : Image) (t : Int) (hw : a.width = b.width)
    (hh : a.height = b.height) :
    (performDiffing a b t = none ↔ NoVisibleChange a b t) ∧
      generateDiffMap a a = none :=
  ⟨performDiffing_same_dims a b t hw hh, generateDiffMap_self a⟩

theorem claim_C8_witness :
    (fillImage 1 1 ⟨0, 0, 0⟩).width = (fillImage 1 1 ⟨7, 7, 7⟩).width ∧
      (fillImage 1 1 ⟨0, 0, 0⟩).height = (fillImage 1 1 ⟨7, 7, 7⟩).height ∧
      ((performDiffing (fillImage 1 1 ⟨0, 0, 0⟩) (fillImage 1 1 ⟨7, 7, 7⟩) 100 = none ↔
          NoVisibleChange (fillImage 1 1 ⟨0, 0, 0⟩) (fillImage 1 1 ⟨7, 7, 7⟩) 100) ∧
        generateDiffMap (fillImage 1 1 ⟨0, 0, 0⟩) (fillImage 1 1 ⟨0, 0, 0⟩) = none) :=
  ⟨rfl, rfl, claim_C8 (fillImage 1 1 ⟨0, 0, 0⟩) (fillImage 1 1 ⟨7, 7, 7⟩) 100 rfl rfl⟩

/-- C9: every record ever appended to the history — by the initial
analysis, by the refinement loop, or by manual refinement (starting from
any history already satisfying the invariant) — satisfies:
`finalReason = 'passed'` implies `passed = true`, and
`finalReason = 'limit_reached'` implies `passed = false`. -/
theorem claim_C9 :
    (∀ (maxR : Nat) (init : String) (refImgs : Nat → String)
        (diffs : Nat → Option String) (leakMaps : Nat → String)
        (analysisPassed : Nat → Bool),
      HistoryReasonsOk (generateMapHistory maxR init refImgs diffs leakMaps
        analysisPassed)) ∧
    (∀ (gen : Option String) (isLoading apiKeyOk : Bool)
        (hist : List AnalysisRecord) (refined : String)
        (aiChange : Option String) (needsRef : Bool) (lm : String),
      HistoryReasonsOk hist →
        HistoryReasonsOk (manualRefine gen isLoading apiKeyOk hist refined
          aiChange needsRef lm)) :=
  ⟨generateMapHistory_reasons, manualRefine_reasons⟩

theorem claim_C9_witness :
    HistoryReasonsOk [(⟨1, "m", none, "l", true, true, some FinalReason.passed,
        false⟩ : AnalysisRecord)] ∧
      HistoryReasonsOk (manualRefine (some "g") false true
        [(⟨1, "m", none, "l", true, true, some FinalReason.passed, false⟩ :
          AnalysisRecord)] "r" none false "lm") :=
  ⟨by decide, claim_C9.2 (some "g") false true
    [(⟨1, "m", none, "l", true, true, some FinalReason.passed, false⟩ :
      AnalysisRecord)] "r" none false "lm" (by decide)⟩

end MapWeaver
